import Mathlib

/-!
A verification development for the `rustyglot` opening-book tool.

The definitions below are a shallow embedding of the Rust sources
(`src/books/mod.rs`, `src/books/txt_books.rs`).  Machine integers are
modelled as `Nat` with explicit `% 2^w` at the points where the Rust code
truncates or can wrap; `HashMap<u64, Vec<BookEntry>>` is modelled as an
association list `List (Nat × List BookEntry)` whose operations touch the
first pair with a matching key (real `HashMap`s never hold a duplicated
key, and all operations below are consistent about using the first
occurrence); fallible code returns `Option`/`Except`.
-/

namespace Rustyglot

/-- `u16::MAX as u64` (`U16_MAX` in `books/mod.rs`). -/
def U16MAX : Nat := 65535

/-- `BookEntry` (`books/mod.rs`): a packed move (`u16`), a derived optional
ply depth, a weight (`u64`) and an opaque learn annotation (`u32`). -/
structure BookEntry where
  mov : Nat
  depth : Option Nat
  weight : Nat
  learn : Nat
deriving Repr, DecidableEq

/-- `BookEntry::new()`. -/
def BookEntry.new : BookEntry := ⟨0, none, 0, 0⟩

/-- The `map` field of `BookMap`: `HashMap<u64, Vec<BookEntry>>`, as an
association list from position hash to node (entry list). -/
abbrev BookMapData := List (Nat × List BookEntry)

/-- `HashMap::get(&hash)`: the node stored for `h` (first matching key). -/
def mapGet : BookMapData → Nat → Option (List BookEntry)
  | [], _ => none
  | (k, v) :: rest, h => if k = h then some v else mapGet rest h

/-- The loop body of `BookMap::insert`: walk the node's entries, and on the
first entry for which `BookEntry::merge` succeeds (same `mov`) add the new
entry's weight to it; if no entry has the same move, push at the end. -/
def insertEntry (e : BookEntry) : List BookEntry → List BookEntry
  | [] => [e]
  | x :: xs =>
    if x.mov = e.mov then
      { x with weight := x.weight + e.weight } :: xs
    else
      x :: insertEntry e xs

/-- The loop body of `BookMap::insert_no_merge`: keep the node unchanged if
some entry already has the same move, otherwise push at the end. -/
def insertEntryNoMerge (e : BookEntry) : List BookEntry → List BookEntry
  | [] => [e]
  | x :: xs =>
    if x.mov = e.mov then
      x :: xs
    else
      x :: insertEntryNoMerge e xs

/-- `BookMap::insert(hash, entry)` (combine mode): update the existing node
in place, or create a fresh node `vec![entry]` when the hash is absent. -/
def mapInsert : BookMapData → Nat → BookEntry → BookMapData
  | [], h, e => [(h, [e])]
  | (k, v) :: rest, h, e =>
    if k = h then
      (k, insertEntry e v) :: rest
    else
      (k, v) :: mapInsert rest h e

/-- `BookMap::insert_no_merge(hash, entry)` (replace-skip mode). -/
def mapInsertNoMerge : BookMapData → Nat → BookEntry → BookMapData
  | [], h, e => [(h, [e])]
  | (k, v) :: rest, h, e =>
    if k = h then
      (k, insertEntryNoMerge e v) :: rest
    else
      (k, v) :: mapInsertNoMerge rest h e

/-- `BookMap::merge(other)`: re-insert every entry of `other` into `self`
with `BookMap::insert` (combine mode).  The Rust loop iterates the hash map
in unspecified order; the model folds in list order. -/
def mapMerge (a b : BookMapData) : BookMapData :=
  b.foldl (fun acc p => p.2.foldl (fun acc2 e => mapInsert acc2 p.1 e) acc) a

/-- Modelled from the spec: `merge(other, replace-skip)`.  The sources under
`src/` only contain the combine-mode `BookMap::merge` (its replace-skip
sibling `merge`/`merge_combine` pair referenced from `args.rs` is missing
from the snapshot); per the spec, a replace-skip merge "re-inserts every
entry of `other` into `self` under the same mode", i.e. with
`BookMap::insert_no_merge`. -/
def mapMergeNoMerge (a b : BookMapData) : BookMapData :=
  b.foldl (fun acc p => p.2.foldl (fun acc2 e => mapInsertNoMerge acc2 p.1 e) acc) a

/-- Total weight recorded in a node for a given move.  In a well-formed
node (moves unique) this is the weight of the single entry for that move,
and `0` when the move is absent. -/
def nodeWeight (v : List BookEntry) (mov : Nat) : Nat :=
  (v.map (fun e => if e.mov = mov then e.weight else 0)).sum

/-- Total weight recorded in a book graph at a `(hash, move)` key. -/
def mapWeight (m : BookMapData) (h mov : Nat) : Nat :=
  (m.map (fun p => if p.1 = h then nodeWeight p.2 mov else 0)).sum

/-- First entry recorded for a move in a node (`iter` order). -/
def nodeFind (v : List BookEntry) (mov : Nat) : Option BookEntry :=
  v.find? (fun e => e.mov = mov)

/-- The entry stored at a `(hash, move)` key of a book graph. -/
def mapFind (m : BookMapData) (h mov : Nat) : Option BookEntry :=
  (mapGet m h).bind (fun v => nodeFind v mov)

/-! ### Weight bookkeeping for combine-mode insertion -/

theorem nodeWeight_insertEntry (e : BookEntry) (v : List BookEntry) (mov : Nat) :
    nodeWeight (insertEntry e v) mov =
      nodeWeight v mov + (if e.mov = mov then e.weight else 0) := by
  induction v with
  | nil => simp [insertEntry, nodeWeight]
  | cons x xs ih =>
    by_cases hx : x.mov = e.mov
    · by_cases hm : e.mov = mov
      · simp [insertEntry, hx, nodeWeight, hx.trans hm, hm]
        omega
      · simp [insertEntry, hx, nodeWeight, hm, fun h => hm (hx.symm.trans h)]
    · simp only [insertEntry, if_neg hx, nodeWeight, List.map_cons, List.sum_cons]
      have := ih
      simp only [nodeWeight] at this
      omega

theorem mapWeight_cons (k : Nat) (v : List BookEntry) (rest : BookMapData)
    (h mov : Nat) :
    mapWeight ((k, v) :: rest) h mov =
      (if k = h then nodeWeight v mov else 0) + mapWeight rest h mov := by
  simp [mapWeight]

theorem mapWeight_mapInsert (m : BookMapData) (h : Nat) (e : BookEntry) (h' mov : Nat) :
    mapWeight (mapInsert m h e) h' mov =
      mapWeight m h' mov + (if h = h' ∧ e.mov = mov then e.weight else 0) := by
  induction m with
  | nil =>
    simp only [mapInsert]
    rw [mapWeight_cons]
    simp only [mapWeight, List.map_nil, List.sum_nil, add_zero, zero_add]
    by_cases hh : h = h'
    · by_cases hm : e.mov = mov <;> simp [hh, hm, nodeWeight]
    · simp [hh]
  | cons p rest ih =>
    obtain ⟨k, v⟩ := p
    simp only [mapInsert]
    by_cases hk : k = h
    · rw [if_pos hk, mapWeight_cons, mapWeight_cons]
      subst hk
      by_cases hh : k = h'
      · rw [if_pos hh, if_pos hh, nodeWeight_insertEntry]
        by_cases hm : e.mov = mov
        · rw [if_pos hm, if_pos ⟨hh, hm⟩]
          omega
        · rw [if_neg hm, if_neg (fun hc => hm hc.2)]
          omega
      · rw [if_neg hh, if_neg hh, if_neg (fun hc => hh hc.1)]
        omega
    · rw [if_neg hk, mapWeight_cons, mapWeight_cons, ih]
      omega

theorem mapWeight_foldl_insert (es : List BookEntry) (acc : BookMapData)
    (h0 h mov : Nat) :
    mapWeight (es.foldl (fun a e => mapInsert a h0 e) acc) h mov =
      mapWeight acc h mov + (if h0 = h then nodeWeight es mov else 0) := by
  induction es generalizing acc with
  | nil => simp [nodeWeight]
  | cons e es ih =>
    simp only [List.foldl_cons, ih, mapWeight_mapInsert]
    by_cases hh : h0 = h
    · by_cases hm : e.mov = mov <;> simp [hh, hm, nodeWeight] <;> omega
    · simp [hh]

theorem mapWeight_mapMerge (a b : BookMapData) (h mov : Nat) :
    mapWeight (mapMerge a b) h mov = mapWeight a h mov + mapWeight b h mov := by
  induction b generalizing a with
  | nil => simp [mapMerge, mapWeight]
  | cons p rest ih =>
    obtain ⟨k, v⟩ := p
    simp only [mapMerge, List.foldl_cons] at *
    rw [ih, mapWeight_foldl_insert]
    simp only [mapWeight, List.map_cons, List.sum_cons]
    by_cases hk : k = h <;> simp [hk] <;> omega

/-- **C2.** `merge` under combine mode is commutative at the level of
weights: for every pair of book graphs `A`, `B` and every `(hash, move)`
key, the weight in `merge(A, B)` equals the weight in `merge(B, A)`, and
that weight is the sum of the weight in `A` and the weight in `B` (so at a
key present in both graphs it is `weightA + weightB`). -/
theorem merge_combine_weight_commutative (A B : BookMapData) (h mov : Nat) :
    mapWeight (mapMerge A B) h mov = mapWeight (mapMerge B A) h mov ∧
    mapWeight (mapMerge A B) h mov = mapWeight A h mov + mapWeight B h mov := by
  constructor
  · rw [mapWeight_mapMerge, mapWeight_mapMerge, Nat.add_comm]
  · exact mapWeight_mapMerge A B h mov

/-! ### Combine-mode insertion, entry-level description -/

theorem insertEntry_of_no_match (e : BookEntry) (v : List BookEntry)
    (hv : ∀ x ∈ v, x.mov ≠ e.mov) : insertEntry e v = v ++ [e] := by
  induction v with
  | nil => rfl
  | cons x xs ih =>
    have hx : x.mov ≠ e.mov := hv x (by simp)
    simp only [insertEntry, if_neg hx, List.cons_append, List.cons.injEq, true_and]
    exact ih (fun y hy => hv y (by simp [hy]))

theorem insertEntry_merge_first (e x : BookEntry) (v₁ v₂ : List BookEntry)
    (h₁ : ∀ y ∈ v₁, y.mov ≠ e.mov) (hx : x.mov = e.mov) :
    insertEntry e (v₁ ++ x :: v₂) =
      v₁ ++ { x with weight := x.weight + e.weight } :: v₂ := by
  induction v₁ with
  | nil => simp [insertEntry, hx]
  | cons y ys ih =>
    have hy : y.mov ≠ e.mov := h₁ y (by simp)
    simp only [List.cons_append, insertEntry, if_neg hy, List.cons.injEq, true_and]
    exact ih (fun z hz => h₁ z (by simp [hz]))

theorem mapGet_mapInsert_self (m : BookMapData) (h : Nat) (e : BookEntry) :
    mapGet (mapInsert m h e) h = some (insertEntry e ((mapGet m h).getD [])) := by
  induction m with
  | nil => simp [mapInsert, mapGet, insertEntry]
  | cons p rest ih =>
    obtain ⟨k, v⟩ := p
    by_cases hk : k = h
    · simp [mapInsert, mapGet, hk]
    · simp [mapInsert, mapGet, hk, ih]

theorem mapInsert_of_absent (m : BookMapData) (h : Nat) (e : BookEntry)
    (hm : mapGet m h = none) : mapInsert m h e = m ++ [(h, [e])] := by
  induction m with
  | nil => rfl
  | cons p rest ih =>
    obtain ⟨k, v⟩ := p
    by_cases hk : k = h
    · simp [mapGet, hk] at hm
    · simp only [mapGet, if_neg hk] at hm
      simp [mapInsert, hk, ih hm]

theorem mapGet_mapInsert_ne (m : BookMapData) (h : Nat) (e : BookEntry)
    (h' : Nat) (hne : h' ≠ h) : mapGet (mapInsert m h e) h' = mapGet m h' := by
  have hne' : ¬ h = h' := fun hh => hne hh.symm
  induction m with
  | nil => simp [mapInsert, mapGet, hne']
  | cons p rest ih =>
    obtain ⟨k, v⟩ := p
    by_cases hk : k = h
    · subst hk
      simp [mapInsert, mapGet, hne']
    · by_cases hk' : k = h'
      · subst hk'
        simp [mapInsert, mapGet, hk, hne]
      · simp [mapInsert, mapGet, hk, hk', ih]

/-- **C3.** Combine-mode `insert(hash, entry)`: when the map has no node
for the hash, a new node containing only that entry is created; when the
node exists but no entry shares the move, the entry is appended; when the
first same-move entry of the node is `x`, only `x.weight` grows by the
new entry's weight while `x.depth` and `x.learn` are kept; other hashes
are untouched. -/
theorem insert_combine_spec (m : BookMapData) (h : Nat) (e : BookEntry) :
    (mapGet m h = none → mapInsert m h e = m ++ [(h, [e])]) ∧
    (∀ v, mapGet m h = some v → (∀ x ∈ v, x.mov ≠ e.mov) →
      mapGet (mapInsert m h e) h = some (v ++ [e])) ∧
    (∀ v₁ x v₂, mapGet m h = some (v₁ ++ x :: v₂) → (∀ y ∈ v₁, y.mov ≠ e.mov) →
      x.mov = e.mov →
      mapGet (mapInsert m h e) h =
        some (v₁ ++ BookEntry.mk x.mov x.depth (x.weight + e.weight) x.learn :: v₂)) ∧
    (∀ h', h' ≠ h → mapGet (mapInsert m h e) h' = mapGet m h') := by
  refine ⟨mapInsert_of_absent m h e, ?_, ?_, fun h' hne => mapGet_mapInsert_ne m h e h' hne⟩
  · intro v hv hnomatch
    rw [mapGet_mapInsert_self, hv, Option.getD_some, insertEntry_of_no_match e v hnomatch]
  · intro v₁ x v₂ hv h₁ hx
    rw [mapGet_mapInsert_self, hv, Option.getD_some, insertEntry_merge_first e x v₁ v₂ h₁ hx]

/-- Closed instance of `insert_combine_spec`: inserting `(mov 1, weight 4)`
into a node whose first entry has move 1, weight 3, depth 0, learn 7 yields
weight 7 with depth and learn intact. -/
theorem insert_combine_spec_witness :
    mapGet (mapInsert [(5, [BookEntry.mk 1 (some 0) 3 7])] 5 (BookEntry.mk 1 none 4 9)) 5 =
      some [BookEntry.mk 1 (some 0) 7 7] :=
  (insert_combine_spec [(5, [BookEntry.mk 1 (some 0) 3 7])] 5 (BookEntry.mk 1 none 4 9)).2.2.1
    [] (BookEntry.mk 1 (some 0) 3 7) [] rfl (by simp) rfl

/-! ### Replace-skip insertion and merge -/

theorem nodeFind_insertEntryNoMerge (e' : BookEntry) (v : List BookEntry)
    (mov : Nat) (e : BookEntry) (he : nodeFind v mov = some e) :
    nodeFind (insertEntryNoMerge e' v) mov = some e := by
  induction v with
  | nil => simp [nodeFind] at he
  | cons x xs ih =>
    by_cases hx : x.mov = e'.mov
    · simpa [insertEntryNoMerge, hx] using he
    · by_cases hm : x.mov = mov
      · rw [nodeFind, List.find?_cons_of_pos _ (by simp [hm])] at he
        simp only [insertEntryNoMerge, if_neg hx, nodeFind]
        rw [List.find?_cons_of_pos _ (by simp [hm])]
        exact he
      · rw [nodeFind, List.find?_cons_of_neg _ (by simp [hm])] at he
        simp only [insertEntryNoMerge, if_neg hx, nodeFind]
        rw [List.find?_cons_of_neg _ (by simp [hm])]
        exact ih he

theorem mapFind_mapInsertNoMerge (A : BookMapData) (h' : Nat) (e' : BookEntry)
    (h mov : Nat) (e : BookEntry) (he : mapFind A h mov = some e) :
    mapFind (mapInsertNoMerge A h' e') h mov = some e := by
  induction A with
  | nil => simp [mapFind, mapGet] at he
  | cons p rest ih =>
    obtain ⟨k, v⟩ := p
    simp only [mapInsertNoMerge]
    by_cases hk : k = h'
    · rw [if_pos hk]
      by_cases hkh : k = h
      · simp only [mapFind, mapGet, if_pos hkh, Option.some_bind] at he ⊢
        exact nodeFind_insertEntryNoMerge e' v mov e he
      · simp only [mapFind, mapGet, if_neg hkh] at he ⊢
        exact he
    · rw [if_neg hk]
      by_cases hkh : k = h
      · simp only [mapFind, mapGet, if_pos hkh, Option.some_bind] at he ⊢
        exact he
      · simp only [mapFind, mapGet, if_neg hkh] at he ⊢
        exact ih he

theorem mapFind_foldl_insertNoMerge (es : List BookEntry) (acc : BookMapData)
    (h0 h mov : Nat) (e : BookEntry) (he : mapFind acc h mov = some e) :
    mapFind (es.foldl (fun a x => mapInsertNoMerge a h0 x) acc) h mov = some e := by
  induction es generalizing acc with
  | nil => exact he
  | cons x xs ih =>
    exact ih _ (mapFind_mapInsertNoMerge acc h0 x h mov e he)

/-- **C4.** Merging `B` into `A` under replace-skip mode keeps, for every
`(hash, move)` key already present in `A`, `A`'s entry completely unchanged
(same weight, depth and learn). -/
theorem merge_replace_skip_keeps_first (A B : BookMapData) (h mov : Nat)
    (e : BookEntry) (he : mapFind A h mov = some e) :
    mapFind (mapMergeNoMerge A B) h mov = some e := by
  induction B generalizing A with
  | nil => exact he
  | cons p rest ih =>
    simp only [mapMergeNoMerge, List.foldl_cons] at *
    exact ih _ (mapFind_foldl_insertNoMerge p.2 A p.1 h mov e he)

/-- Closed instance of `merge_replace_skip_keeps_first`: the shared key
`(1, move 7)` keeps `A`'s entry (weight 3, depth 2, learn 4), not `B`'s. -/
theorem merge_replace_skip_keeps_first_witness :
    mapFind (mapMergeNoMerge [(1, [BookEntry.mk 7 (some 2) 3 4])]
      [(1, [BookEntry.mk 7 none 100 9, BookEntry.mk 8 none 1 0])]) 1 7 =
      some (BookEntry.mk 7 (some 2) 3 4) :=
  merge_replace_skip_keeps_first _ _ 1 7 (BookEntry.mk 7 (some 2) 3 4) (by decide)

/-! ### Binary codec (`BookMap::write` / `BookMap::extend_from_reader`) -/

/-- `n.to_be_bytes()` restricted to the low `k` bytes: big-endian byte list
of `n % 2^(8k)`. -/
def toBeBytes : Nat → Nat → List Nat
  | 0, _ => []
  | k + 1, n => toBeBytes k (n / 256) ++ [n % 256]

/-- `uN::from_be_bytes`. -/
def fromBeBytes (bs : List Nat) : Nat :=
  bs.foldl (fun acc b => acc * 256 + b) 0

/-- `BookEntry::to_bytes`: 2 bytes of `mov`, 2 bytes of `weight as u16`
(truncation to 16 bits is performed by `toBeBytes 2`), 4 bytes of `learn`. -/
def BookEntry.toBytes (e : BookEntry) : List Nat :=
  toBeBytes 2 e.mov ++ toBeBytes 2 e.weight ++ toBeBytes 4 e.learn

/-- `BookEntry::from_bytes` on the 8-byte tail of a record: bytes `[0,2)`
are the move, `[2,4)` the weight, `[4,8)` the learn; `depth` is left
`none` (as in `BookEntry::new`). -/
def BookEntry.fromBytes (bs : List Nat) : BookEntry :=
  { mov := fromBeBytes (bs.take 2)
    depth := none
    weight := fromBeBytes ((bs.drop 2).take 2)
    learn := fromBeBytes ((bs.drop 4).take 4) }

/-- Insertion step of `sortBy`. -/
def insertSorted (le : α → α → Bool) (a : α) : List α → List α
  | [] => [a]
  | b :: bs => if le a b then a :: b :: bs else b :: insertSorted le a bs

/-- Deterministic model of Rust's `sort_unstable` family: an insertion
sort producing some ordering consistent with the comparison. -/
def sortBy (le : α → α → Bool) : List α → List α
  | [] => []
  | a :: as => insertSorted le a (sortBy le as)

theorem insertSorted_perm (le : α → α → Bool) (a : α) (l : List α) :
    (insertSorted le a l).Perm (a :: l) := by
  induction l with
  | nil => exact List.Perm.refl _
  | cons b bs ih =>
    by_cases hb : le a b
    · simp [insertSorted, hb]
    · simp only [insertSorted, if_neg hb]
      exact (ih.cons b).trans (List.Perm.swap a b bs)

theorem sortBy_perm (le : α → α → Bool) (l : List α) : (sortBy le l).Perm l := by
  induction l with
  | nil => exact List.Perm.refl _
  | cons a as ih => exact (insertSorted_perm le a (sortBy le as)).trans (ih.cons a)

/-- `Option<usize>` ordering (`None` sorts before `Some`). -/
def optLt : Option Nat → Option Nat → Bool
  | none, none => false
  | none, some _ => true
  | some _, none => false
  | some a, some b => decide (a < b)

/-- The derived lexicographic `Ord` on `BookEntry` (field order
`mov`, `depth`, `weight`, `learn`), as a `≤` test. -/
def entryLe (a b : BookEntry) : Bool :=
  if a.mov ≠ b.mov then decide (a.mov < b.mov)
  else if a.depth ≠ b.depth then optLt a.depth b.depth
  else if a.weight ≠ b.weight then decide (a.weight < b.weight)
  else decide (a.learn ≤ b.learn)

/-- Lexicographic `≤` on entry vectors (the derived `Ord` on `Vec`). -/
def listEntryLe : List BookEntry → List BookEntry → Bool
  | [], _ => true
  | _ :: _, [] => false
  | a :: as, b :: bs => if a = b then listEntryLe as bs else entryLe a b

/-- The derived `Ord` on the `(hash, entries)` pairs sorted by
`BookMap::write` (hash first, then the vector lexicographically). -/
def groupLe (p q : Nat × List BookEntry) : Bool :=
  if p.1 ≠ q.1 then decide (p.1 < q.1) else listEntryLe p.2 q.2

/-- `entries.iter().map(|e| e.weight).max()` for a nonempty node
(`BookMap::write` calls `.unwrap()`, so the Rust code panics on an empty
node; every hypothesis set below rules empty nodes out). -/
def nodeMaxWeight (v : List BookEntry) : Nat :=
  (v.map (fun e => e.weight)).foldr Nat.max 0

/-- The weight-rescaling step of `BookMap::write` for a group whose
`max_weight` exceeds `U16_MAX`: `entry.weight *= U16_MAX` (a `u64`
multiplication, wrapping modulo `2^64` as in release-profile Rust)
followed by `entry.weight /= max_weight`. -/
def scaleWeight (maxW w : Nat) : Nat :=
  w * U16MAX % 2 ^ 64 / maxW

/-- The sorted `(hash, sorted entries)` groups built at the start of
`BookMap::write` (each node is cloned and `sort_unstable`d, then the
group vector is `sort_unstable`d). -/
def sortedGroups (m : BookMapData) : BookMapData :=
  sortBy groupLe (m.map (fun p => (p.1, sortBy entryLe p.2)))

/-- The record stream of `BookMap::write`: one `(hash, entry)` record per
entry of the sorted groups, rescaling a group's weights when its
`max_weight` exceeds `U16_MAX`. -/
def writeRecords (m : BookMapData) : List (Nat × BookEntry) :=
  (sortedGroups m).flatMap
    (fun p =>
      p.2.map (fun e =>
        (p.1, if U16MAX < nodeMaxWeight p.2 then
                { e with weight := scaleWeight (nodeMaxWeight p.2) e.weight }
              else e)))

/-- The 16 bytes written for one record: 8-byte hash, then
`BookEntry::to_bytes`. -/
def recordBytes (r : Nat × BookEntry) : List Nat :=
  toBeBytes 8 r.1 ++ r.2.toBytes

/-- The byte stream produced by `BookMap::write`. -/
def writeBytes (m : BookMapData) : List Nat :=
  (writeRecords m).flatMap recordBytes

/-- `BookMap::extend_from_reader`: consume 16-byte records while
`read_exact` succeeds (a trailing fragment shorter than 16 bytes is
dropped without error), inserting each with combine-mode `insert`. -/
def readRecords : List Nat → BookMapData → BookMapData
  | b0 :: b1 :: b2 :: b3 :: b4 :: b5 :: b6 :: b7 ::
    b8 :: b9 :: b10 :: b11 :: b12 :: b13 :: b14 :: b15 :: rest, m =>
    readRecords rest
      (mapInsert m (fromBeBytes [b0, b1, b2, b3, b4, b5, b6, b7])
        (BookEntry.fromBytes [b8, b9, b10, b11, b12, b13, b14, b15]))
  | _, m => m

/-- Binary write followed by binary read into a fresh book
(`BookMap::new()` then `extend_from_reader`). -/
def roundTrip (m : BookMapData) : BookMapData :=
  readRecords (writeBytes m) []

/-- The `(hash, move, weight, learn)` tuples stored in a book graph
(`depth` deliberately omitted: it is derived data). -/
def tuples (m : BookMapData) : List (Nat × Nat × Nat × Nat) :=
  m.flatMap (fun p => p.2.map (fun e => (p.1, e.mov, e.weight, e.learn)))

/-! ### Byte-level round-trip lemmas -/

theorem toBeBytes_length (k n : Nat) : (toBeBytes k n).length = k := by
  induction k generalizing n with
  | zero => rfl
  | succ k ih => simp [toBeBytes, ih]

theorem fromBeBytes_append_singleton (l : List Nat) (b : Nat) :
    fromBeBytes (l ++ [b]) = fromBeBytes l * 256 + b := by
  simp [fromBeBytes, List.foldl_append]

theorem fromBeBytes_toBeBytes (k n : Nat) :
    fromBeBytes (toBeBytes k n) = n % 2 ^ (8 * k) := by
  induction k generalizing n with
  | zero => simp [toBeBytes, fromBeBytes, Nat.mod_one]
  | succ k ih =>
    rw [toBeBytes, fromBeBytes_append_singleton, ih]
    have h1 : 2 ^ (8 * (k + 1)) = 256 * 2 ^ (8 * k) := by
      rw [Nat.mul_add, Nat.pow_add]
      ring
    rw [h1, Nat.mod_mul]
    have h2 : n / 256 % 2 ^ (8 * k) * 256 = 256 * (n / 256 % 2 ^ (8 * k)) := by ring
    omega

theorem fromBytes_toBytes (e : BookEntry) :
    BookEntry.fromBytes e.toBytes =
      BookEntry.mk (e.mov % 2 ^ 16) none (e.weight % 2 ^ 16) (e.learn % 2 ^ 32) := by
  have hmov : e.toBytes.take 2 = toBeBytes 2 e.mov := by
    rw [BookEntry.toBytes, List.append_assoc, List.take_left' (toBeBytes_length 2 e.mov)]
  have hdrop2 : e.toBytes.drop 2 = toBeBytes 2 e.weight ++ toBeBytes 4 e.learn := by
    rw [BookEntry.toBytes, List.append_assoc, List.drop_left' (toBeBytes_length 2 e.mov)]
  have hw : (e.toBytes.drop 2).take 2 = toBeBytes 2 e.weight := by
    rw [hdrop2, List.take_left' (toBeBytes_length 2 e.weight)]
  have hdrop4 : e.toBytes.drop 4 = toBeBytes 4 e.learn := by
    have : e.toBytes = (toBeBytes 2 e.mov ++ toBeBytes 2 e.weight) ++ toBeBytes 4 e.learn := by
      rw [BookEntry.toBytes, List.append_assoc]
    rw [this, List.drop_left']
    rw [List.length_append, toBeBytes_length, toBeBytes_length]
  have hl : (e.toBytes.drop 4).take 4 = toBeBytes 4 e.learn := by
    rw [hdrop4, List.take_of_length_le (by rw [toBeBytes_length])]
  rw [BookEntry.fromBytes, hmov, hw, hl, fromBeBytes_toBeBytes, fromBeBytes_toBeBytes,
    fromBeBytes_toBeBytes]

theorem readRecords_chunk (h : Nat) (e : BookEntry) (bs : List Nat) (m : BookMapData) :
    readRecords (recordBytes (h, e) ++ bs) m =
      readRecords bs
        (mapInsert m (h % 2 ^ 64) (BookEntry.fromBytes e.toBytes)) := by
  have h8 : fromBeBytes (toBeBytes 8 h) = h % 2 ^ 64 := fromBeBytes_toBeBytes 8 h
  simp only [recordBytes, BookEntry.toBytes, toBeBytes, List.append_assoc,
    List.cons_append, List.nil_append] at *
  rw [readRecords, ← h8]

theorem readRecords_flatMap (rs : List (Nat × BookEntry)) (m : BookMapData) :
    readRecords (rs.flatMap recordBytes) m =
      rs.foldl
        (fun acc r => mapInsert acc (r.1 % 2 ^ 64) (BookEntry.fromBytes r.2.toBytes)) m := by
  induction rs generalizing m with
  | nil => rfl
  | cons r rs ih =>
    obtain ⟨h, e⟩ := r
    rw [List.flatMap_cons, readRecords_chunk, ih, List.foldl_cons]

/-! ### Tuple bookkeeping for insertion folds -/

/-- The tuple of one written record. -/
def recordTuple (r : Nat × BookEntry) : Nat × Nat × Nat × Nat :=
  (r.1, r.2.mov, r.2.weight, r.2.learn)

/-- The `(hash, move)` key of a tuple. -/
def tupleKey (t : Nat × Nat × Nat × Nat) : Nat × Nat := (t.1, t.2.1)

theorem tuples_cons (k : Nat) (v : List BookEntry) (rest : BookMapData) :
    tuples ((k, v) :: rest) =
      v.map (fun e => (k, e.mov, e.weight, e.learn)) ++ tuples rest := by
  simp [tuples]

theorem tuples_mapInsert_perm (m : BookMapData) (h : Nat) (e : BookEntry)
    (hnew : ∀ t ∈ tuples m, ¬(t.1 = h ∧ t.2.1 = e.mov)) :
    (tuples (mapInsert m h e)).Perm ((h, e.mov, e.weight, e.learn) :: tuples m) := by
  induction m with
  | nil => simp [mapInsert, tuples]
  | cons p rest ih =>
    obtain ⟨k, v⟩ := p
    by_cases hk : k = h
    · subst hk
      have hv : ∀ x ∈ v, x.mov ≠ e.mov := by
        intro x hx hmov
        exact hnew (k, x.mov, x.weight, x.learn)
          (by simp [tuples_cons]; exact Or.inl ⟨x, hx, rfl, rfl, rfl⟩) ⟨rfl, hmov⟩
      rw [mapInsert, if_pos rfl, insertEntry_of_no_match e v hv, tuples_cons, tuples_cons]
      rw [List.map_append]
      simp only [List.map_cons, List.map_nil, List.append_assoc, List.singleton_append]
      exact List.perm_middle
    · rw [mapInsert, if_neg hk, tuples_cons, tuples_cons]
      have hnew' : ∀ t ∈ tuples rest, ¬(t.1 = h ∧ t.2.1 = e.mov) := by
        intro t ht
        exact hnew t (by rw [tuples_cons]; exact List.mem_append_right _ ht)
      exact ((ih hnew').append_left _).trans List.perm_middle

theorem tuples_foldl_insert_perm (rs : List (Nat × BookEntry)) (m : BookMapData)
    (hnd : ((tuples m).map tupleKey ++ rs.map (fun r => (r.1, r.2.mov))).Nodup) :
    (tuples (rs.foldl (fun acc r => mapInsert acc r.1 r.2) m)).Perm
      (tuples m ++ rs.map recordTuple) := by
  induction rs generalizing m with
  | nil => simp
  | cons r rs ih =>
    obtain ⟨h, e⟩ := r
    have hnew : ∀ t ∈ tuples m, ¬(t.1 = h ∧ t.2.1 = e.mov) := by
      intro t ht ⟨h1, h2⟩
      have hmem1 : (h, e.mov) ∈ (tuples m).map tupleKey := by
        refine List.mem_map.2 ⟨t, ht, ?_⟩
        simp [tupleKey, h1, h2]
      have hdis := List.disjoint_of_nodup_append hnd
      exact hdis hmem1 (by simp)
    have p1 := tuples_mapInsert_perm m h e hnew
    have hnd' : ((tuples (mapInsert m h e)).map tupleKey ++
        rs.map (fun r => (r.1, r.2.mov))).Nodup := by
      have hperm : ((tuples (mapInsert m h e)).map tupleKey ++
          rs.map (fun r => (r.1, r.2.mov))).Perm
          (((h, e.mov) :: (tuples m).map tupleKey) ++ rs.map (fun r => (r.1, r.2.mov))) := by
        refine List.Perm.append ?_ (List.Perm.refl _)
        simpa [tupleKey] using p1.map tupleKey
      refine hperm.symm.nodup ?_
      have : (((h, e.mov) :: (tuples m).map tupleKey) ++
          rs.map (fun r => (r.1, r.2.mov))).Perm
          ((tuples m).map tupleKey ++ ((h, e.mov) :: rs.map (fun r => (r.1, r.2.mov)))) := by
        exact List.perm_middle.symm
      exact this.symm.nodup (by simpa using hnd)
    rw [List.foldl_cons, List.map_cons]
    refine (ih _ hnd').trans ?_
    refine (List.Perm.append p1 (List.Perm.refl _)).trans ?_
    have : recordTuple (h, e) = (h, e.mov, e.weight, e.learn) := rfl
    rw [this]
    exact List.perm_middle.symm

/-! ### The sorted groups of `BookMap::write` -/

theorem sortedGroups_perm (m : BookMapData) :
    (sortedGroups m).Perm (m.map (fun p => (p.1, sortBy entryLe p.2))) :=
  sortBy_perm _ _

theorem sortedGroups_keys_perm (m : BookMapData) :
    ((sortedGroups m).map Prod.fst).Perm (m.map Prod.fst) := by
  refine ((sortedGroups_perm m).map Prod.fst).trans ?_
  rw [List.map_map]
  exact List.Perm.of_eq (List.map_congr_left (fun p _ => rfl))

theorem mem_sortedGroups (m : BookMapData) (p : Nat × List BookEntry)
    (hp : p ∈ sortedGroups m) : ∃ q ∈ m, p = (q.1, sortBy entryLe q.2) := by
  have := (sortedGroups_perm m).mem_iff.1 hp
  obtain ⟨q, hq, hpq⟩ := List.mem_map.1 this
  exact ⟨q, hq, hpq.symm⟩

theorem nodeMaxWeight_le (v : List BookEntry) (c : Nat)
    (h : ∀ e ∈ v, e.weight ≤ c) : nodeMaxWeight v ≤ c := by
  induction v with
  | nil => exact Nat.zero_le c
  | cons e es ih =>
    simp only [nodeMaxWeight, List.map_cons, List.foldr_cons]
    exact Nat.max_le.2 ⟨h e (by simp), ih (fun x hx => h x (by simp [hx]))⟩

theorem le_nodeMaxWeight (v : List BookEntry) (e : BookEntry) (he : e ∈ v) :
    e.weight ≤ nodeMaxWeight v := by
  induction v with
  | nil => simp at he
  | cons x xs ih =>
    simp only [nodeMaxWeight, List.map_cons, List.foldr_cons]
    rcases List.mem_cons.1 he with h | h
    · subst h
      exact Nat.le_max_left _ _
    · exact (ih h).trans (Nat.le_max_right _ _)

theorem nodeMaxWeight_perm (v w : List BookEntry) (h : v.Perm w) :
    nodeMaxWeight v = nodeMaxWeight w :=
  @List.Perm.foldr_eq _ _ Nat.max _ _ ⟨fun a b c => Nat.max_left_comm a b c⟩ (h.map _) 0

/-- The `(hash, move)` key pairs of a structurally well-formed map are
pairwise distinct. -/
theorem pairs_nodup (l : BookMapData) (hk : (l.map Prod.fst).Nodup)
    (hm : ∀ p ∈ l, (p.2.map BookEntry.mov).Nodup) :
    (l.flatMap (fun p => p.2.map (fun e => (p.1, e.mov)))).Nodup := by
  induction l with
  | nil => simp
  | cons p rest ih =>
    rw [List.flatMap_cons]
    refine List.Nodup.append ?_ ?_ ?_
    · have heq : p.2.map (fun e => (p.1, e.mov)) =
          (p.2.map BookEntry.mov).map (fun mv => (p.1, mv)) := by
        rw [List.map_map]
        exact List.map_congr_left (fun e _ => rfl)
      rw [heq]
      refine List.Nodup.map ?_ (hm p (by simp))
      intro a b hab
      simpa using hab
    · exact ih (List.nodup_cons.1 (by simpa using hk)).2
        (fun q hq => hm q (by simp [hq]))
    · intro a ha hb
      obtain ⟨e, he2, hea⟩ := List.mem_map.1 ha
      obtain ⟨q, hq, hqa⟩ := List.mem_flatMap.1 hb
      obtain ⟨e', he2', hea'⟩ := List.mem_map.1 hqa
      have h1 : a.1 = p.1 := by rw [← hea]
      have h2 : a.1 = q.1 := by rw [← hea']
      have hmem : p.1 ∈ rest.map Prod.fst := by
        rw [← h1, h2]
        exact List.mem_map.2 ⟨q, hq, rfl⟩
      exact (List.nodup_cons.1 (by simpa using hk)).1 hmem

theorem mem_writeRecords (m : BookMapData) (r : Nat × BookEntry)
    (hr : r ∈ writeRecords m) :
    ∃ p ∈ sortedGroups m, ∃ e ∈ p.2, r.1 = p.1 ∧ r.2.mov = e.mov := by
  obtain ⟨p, hp, hr2⟩ := List.mem_flatMap.1 hr
  obtain ⟨e, he, her⟩ := List.mem_map.1 hr2
  refine ⟨p, hp, e, he, ?_, ?_⟩
  · rw [← her]
  · rw [← her]
    by_cases hb : U16MAX < nodeMaxWeight p.2 <;> simp [hb]

/-- Core round-trip description: for a structurally well-formed graph the
tuples surviving a binary write/read cycle are exactly the written
records' tuples with the binary field truncations applied. -/
theorem tuples_roundTrip_perm (G : BookMapData)
    (hkeys : (G.map Prod.fst).Nodup)
    (hmovs : ∀ p ∈ G, (p.2.map BookEntry.mov).Nodup)
    (hhash : ∀ p ∈ G, p.1 < 2 ^ 64)
    (hmov : ∀ p ∈ G, ∀ e ∈ p.2, e.mov < 2 ^ 16) :
    (tuples (roundTrip G)).Perm
      ((writeRecords G).map
        (fun r => (r.1, r.2.mov, r.2.weight % 2 ^ 16, r.2.learn % 2 ^ 32))) := by
  -- range facts for every record
  have hrange : ∀ r ∈ writeRecords G, r.1 < 2 ^ 64 ∧ r.2.mov < 2 ^ 16 := by
    intro r hr
    obtain ⟨p, hp, e, he, hr1, hr2⟩ := mem_writeRecords G r hr
    obtain ⟨q, hq, hpq⟩ := mem_sortedGroups G p hp
    constructor
    · rw [hr1, hpq]
      exact hhash q hq
    · rw [hr2]
      have he' : e ∈ sortBy entryLe q.2 := by
        have := hpq
        have : p.2 = sortBy entryLe q.2 := by rw [hpq]
        rwa [this] at he
      exact hmov q hq e ((sortBy_perm entryLe q.2).mem_iff.1 he')
  -- key-pair distinctness of the records
  have hkeysS : ((sortedGroups G).map Prod.fst).Nodup :=
    (sortedGroups_keys_perm G).symm.nodup hkeys
  have hmovsS : ∀ p ∈ sortedGroups G, (p.2.map BookEntry.mov).Nodup := by
    intro p hp
    obtain ⟨q, hq, hpq⟩ := mem_sortedGroups G p hp
    have : (p.2.map BookEntry.mov).Perm (q.2.map BookEntry.mov) := by
      rw [hpq]
      exact (sortBy_perm entryLe q.2).map _
    exact this.symm.nodup (hmovs q hq)
  have hnd : ((writeRecords G).map (fun r => (r.1, r.2.mov))).Nodup := by
    have heq : (writeRecords G).map (fun r => (r.1, r.2.mov)) =
        (sortedGroups G).flatMap (fun p => p.2.map (fun e => (p.1, e.mov))) := by
      rw [writeRecords, List.map_flatMap]
      refine List.flatMap_congr ?_
      intro p _
      rw [List.map_map]
      refine List.map_congr_left ?_
      intro e _
      by_cases hb : U16MAX < nodeMaxWeight p.2 <;> simp [hb]
    rw [heq]
    exact pairs_nodup _ hkeysS hmovsS
  -- unfold the read fold
  have hfold : List.foldl
      (fun acc r => mapInsert acc (r.1 % 2 ^ 64) (BookEntry.fromBytes r.2.toBytes))
      ([] : BookMapData) (writeRecords G) =
      List.foldl (fun acc r => mapInsert acc r.1 r.2) []
        ((writeRecords G).map
          (fun r => ((r.1 % 2 ^ 64 : Nat), BookEntry.fromBytes r.2.toBytes))) := by
    rw [List.foldl_map]
  rw [roundTrip, writeBytes, readRecords_flatMap, hfold]
  have hmain := tuples_foldl_insert_perm
    ((writeRecords G).map (fun r => (r.1 % 2 ^ 64, BookEntry.fromBytes r.2.toBytes))) []
  rw [List.map_map] at hmain
  have hkeyeq : ((writeRecords G).map
      ((fun r => (r.1, r.2.mov)) ∘
        (fun r => ((r.1 % 2 ^ 64 : Nat), BookEntry.fromBytes r.2.toBytes)))) =
      (writeRecords G).map (fun r => (r.1, r.2.mov)) := by
    refine List.map_congr_left ?_
    intro r hr
    obtain ⟨h1, h2⟩ := hrange r hr
    show ((r.1 % 2 ^ 64 : Nat), (BookEntry.fromBytes r.2.toBytes).mov) = (r.1, r.2.mov)
    rw [fromBytes_toBytes]
    simp only [Nat.mod_eq_of_lt h1, Nat.mod_eq_of_lt h2]
  have hnd2 : ((tuples ([] : BookMapData)).map tupleKey ++
      (writeRecords G).map
        ((fun r => (r.1, r.2.mov)) ∘
          (fun r => ((r.1 % 2 ^ 64 : Nat), BookEntry.fromBytes r.2.toBytes)))).Nodup := by
    rw [hkeyeq]
    have h0 : tuples ([] : BookMapData) = [] := rfl
    rw [h0, List.map_nil, List.nil_append]
    exact hnd
  have hmain2 := hmain hnd2
  refine hmain2.trans ?_
  rw [List.map_map]
  have h0 : tuples ([] : BookMapData) = [] := rfl
  rw [h0, List.nil_append]
  refine List.Perm.of_eq (List.map_congr_left ?_)
  intro r hr
  obtain ⟨h1, h2⟩ := hrange r hr
  show (r.1 % 2 ^ 64, (BookEntry.fromBytes r.2.toBytes).mov,
      (BookEntry.fromBytes r.2.toBytes).weight, (BookEntry.fromBytes r.2.toBytes).learn) =
    (r.1, r.2.mov, r.2.weight % 2 ^ 16, r.2.learn % 2 ^ 32)
  rw [fromBytes_toBytes]
  simp only [Nat.mod_eq_of_lt h1, Nat.mod_eq_of_lt h2]

theorem tuples_perm_of_perm (l1 l2 : BookMapData) (h : l1.Perm l2) :
    (tuples l1).Perm (tuples l2) :=
  List.Perm.flatMap_right _ h

theorem tuples_sortNodes_perm (m : BookMapData) :
    (tuples (m.map (fun p => (p.1, sortBy entryLe p.2)))).Perm (tuples m) := by
  induction m with
  | nil => exact List.Perm.refl _
  | cons p rest ih =>
    rw [List.map_cons]
    obtain ⟨k, v⟩ := p
    rw [tuples_cons, tuples_cons]
    exact List.Perm.append ((sortBy_perm entryLe v).map _) ih

theorem tuples_sortedGroups_perm (m : BookMapData) :
    (tuples (sortedGroups m)).Perm (tuples m) :=
  (tuples_perm_of_perm _ _ (sortedGroups_perm m)).trans (tuples_sortNodes_perm m)

/-- **C1.** For every well-formed book graph in which every node's maximum
weight is at most `U16_MAX = 65535`, writing with the binary writer and
reading back with the binary reader reproduces exactly the same set of
`(hash, move, weight, learn)` tuples (`depth` is not compared; it comes
back `none`).  Well-formedness is the data-model invariant: hash-map keys
unique, nodes nonempty (the Rust writer `unwrap`s a node's max and would
panic on an empty node), moves unique within a node, and the fields within
their `u64`/`u16`/`u32` ranges. -/
theorem binary_roundtrip_exact (G : BookMapData)
    (hne : ∀ p ∈ G, p.2 ≠ [])
    (hkeys : (G.map Prod.fst).Nodup)
    (hmovs : ∀ p ∈ G, (p.2.map BookEntry.mov).Nodup)
    (hhash : ∀ p ∈ G, p.1 < 2 ^ 64)
    (hmov : ∀ p ∈ G, ∀ e ∈ p.2, e.mov < 2 ^ 16)
    (hlearn : ∀ p ∈ G, ∀ e ∈ p.2, e.learn < 2 ^ 32)
    (hw : ∀ p ∈ G, ∀ e ∈ p.2, e.weight ≤ U16MAX) :
    ∀ t, t ∈ tuples (roundTrip G) ↔ t ∈ tuples G := by
  have hmem : ∀ p ∈ sortedGroups G, ∀ e ∈ p.2,
      e.learn < 2 ^ 32 ∧ e.weight ≤ U16MAX := by
    intro p hp e he
    obtain ⟨q, hq, hpq⟩ := mem_sortedGroups G p hp
    have hv : p.2 = sortBy entryLe q.2 := by rw [hpq]
    rw [hv] at he
    have he' := (sortBy_perm entryLe q.2).mem_iff.1 he
    exact ⟨hlearn q hq e he', hw q hq e he'⟩
  have hnoscale : ∀ p ∈ sortedGroups G, ¬ (U16MAX < nodeMaxWeight p.2) := by
    intro p hp
    have := nodeMaxWeight_le p.2 U16MAX (fun e he => (hmem p hp e he).2)
    omega
  have hrec : writeRecords G =
      (sortedGroups G).flatMap (fun p => p.2.map (fun e => (p.1, e))) := by
    rw [writeRecords]
    refine List.flatMap_congr ?_
    intro p hp
    refine List.map_congr_left ?_
    intro e _
    rw [if_neg (hnoscale p hp)]
  have hmap : (writeRecords G).map
      (fun r => (r.1, r.2.mov, r.2.weight % 2 ^ 16, r.2.learn % 2 ^ 32)) =
      tuples (sortedGroups G) := by
    rw [hrec, List.map_flatMap, tuples]
    refine List.flatMap_congr ?_
    intro p hp
    rw [List.map_map]
    refine List.map_congr_left ?_
    intro e he
    obtain ⟨hl, hwt⟩ := hmem p hp e he
    have hw16 : e.weight < 2 ^ 16 := by
      have : U16MAX < 2 ^ 16 := by norm_num [U16MAX]
      omega
    show (p.1, e.mov, e.weight % 2 ^ 16, e.learn % 2 ^ 32) =
      (p.1, e.mov, e.weight, e.learn)
    rw [Nat.mod_eq_of_lt hw16, Nat.mod_eq_of_lt hl]
  intro t
  have hperm := tuples_roundTrip_perm G hkeys hmovs hhash hmov
  rw [hmap] at hperm
  exact (hperm.trans (tuples_sortedGroups_perm G)).mem_iff

/-- Closed instance of `binary_roundtrip_exact` on a two-node book. -/
theorem binary_roundtrip_exact_witness :
    (600, 4, 65535, 9) ∈
      tuples (roundTrip [(5, [BookEntry.mk 3 none 7 0]),
        (600, [BookEntry.mk 4 (some 1) 65535 9, BookEntry.mk 2 none 0 1])]) :=
  (binary_roundtrip_exact
      [(5, [BookEntry.mk 3 none 7 0]),
        (600, [BookEntry.mk 4 (some 1) 65535 9, BookEntry.mk 2 none 0 1])]
      (by decide) (by decide) (by decide) (by decide) (by decide) (by decide) (by decide)
      (600, 4, 65535, 9)).2 (by decide)

/-! ### The rescaled round trip (node max weight above `U16_MAX`) -/

theorem mapGet_mem (m : BookMapData) (h : Nat) (v : List BookEntry)
    (hv : mapGet m h = some v) : (h, v) ∈ m := by
  induction m with
  | nil => simp [mapGet] at hv
  | cons p rest ih =>
    obtain ⟨k, w⟩ := p
    by_cases hk : k = h
    · subst hk
      rw [mapGet, if_pos rfl] at hv
      have hw := Option.some.inj hv
      subst hw
      simp
    · simp only [mapGet, if_neg hk] at hv
      exact List.mem_cons_of_mem _ (ih hv)

theorem scaleWeight_le (M w : Nat) (hw : w ≤ M) (hnw : w * U16MAX < 2 ^ 64)
    (hM : 0 < M) : scaleWeight M w ≤ U16MAX := by
  rw [scaleWeight, Nat.mod_eq_of_lt hnw]
  have h1 : w * U16MAX ≤ M * U16MAX := Nat.mul_le_mul_right _ hw
  have h2 : w * U16MAX / M ≤ M * U16MAX / M := Nat.div_le_div_right h1
  rwa [Nat.mul_div_cancel_left U16MAX hM] at h2

/-- **C6 (counterexample to the claim as stated).** For the node
`[(mov 0, weight 2^63)]` the max weight `2^63` exceeds `U16_MAX`, yet the
round-tripped weight is `1`, not `2^63 * 65535 / 2^63 = 65535`: the
writer's `entry.weight *= U16_MAX` wraps around `u64` before the division
by `max_weight`. -/
theorem binary_rescale_overflow_counterexample :
    U16MAX < nodeMaxWeight [BookEntry.mk 0 none (2 ^ 63) 0] ∧
    tuples (roundTrip [(0, [BookEntry.mk 0 none (2 ^ 63) 0])]) = [(0, 0, 1, 0)] ∧
    2 ^ 63 * U16MAX / nodeMaxWeight [BookEntry.mk 0 none (2 ^ 63) 0] = U16MAX ∧
    (0, 0, 2 ^ 63 * U16MAX / nodeMaxWeight [BookEntry.mk 0 none (2 ^ 63) 0], 0) ∉
      tuples (roundTrip [(0, [BookEntry.mk 0 none (2 ^ 63) 0])]) :=
  ⟨by decide, by decide, by decide, by decide⟩

/-- **C6 (amended).** For a well-formed book graph and a node whose max
weight exceeds `U16_MAX`, *provided no weight in the node overflows the
`u64` rescaling multiply* (`weight * 65535 < 2^64`), after a binary
write/read round trip every entry of that node reappears with weight
`weight * 65535 / max_weight` (integer division), and this rescaling
preserves the relative (non-strict) order of the node's weights. -/
theorem binary_roundtrip_rescale (G : BookMapData)
    (hne : ∀ p ∈ G, p.2 ≠ [])
    (hkeys : (G.map Prod.fst).Nodup)
    (hmovs : ∀ p ∈ G, (p.2.map BookEntry.mov).Nodup)
    (hhash : ∀ p ∈ G, p.1 < 2 ^ 64)
    (hmov : ∀ p ∈ G, ∀ e ∈ p.2, e.mov < 2 ^ 16)
    (hlearn : ∀ p ∈ G, ∀ e ∈ p.2, e.learn < 2 ^ 32)
    (h : Nat) (v : List BookEntry) (hv : mapGet G h = some v)
    (hbig : U16MAX < nodeMaxWeight v)
    (hover : ∀ e ∈ v, e.weight * U16MAX < 2 ^ 64) :
    (∀ e ∈ v, (h, e.mov, e.weight * U16MAX / nodeMaxWeight v, e.learn)
      ∈ tuples (roundTrip G)) ∧
    (∀ e1 ∈ v, ∀ e2 ∈ v, e1.weight ≤ e2.weight →
      e1.weight * U16MAX / nodeMaxWeight v ≤ e2.weight * U16MAX / nodeMaxWeight v) := by
  have hGmem : (h, v) ∈ G := mapGet_mem G h v hv
  constructor
  · intro e he
    -- the sorted group for this node
    have hp : (h, sortBy entryLe v) ∈ sortedGroups G :=
      (sortedGroups_perm G).mem_iff.2
        (List.mem_map.2 ⟨(h, v), hGmem, rfl⟩)
    have hM : nodeMaxWeight (sortBy entryLe v) = nodeMaxWeight v :=
      nodeMaxWeight_perm _ _ (sortBy_perm entryLe v)
    have he' : e ∈ sortBy entryLe v := (sortBy_perm entryLe v).mem_iff.2 he
    -- the rescaled record of `e`
    have hrec : (h, { e with weight := scaleWeight (nodeMaxWeight v) e.weight })
        ∈ writeRecords G := by
      rw [writeRecords]
      refine List.mem_flatMap.2 ⟨(h, sortBy entryLe v), hp, ?_⟩
      refine List.mem_map.2 ⟨e, he', ?_⟩
      rw [if_pos]
      · rw [hM]
      · rw [hM]
        exact hbig
    -- weight-field facts
    have hMpos : 0 < nodeMaxWeight v := by
      have : 0 < U16MAX := by norm_num [U16MAX]
      omega
    have hsc : scaleWeight (nodeMaxWeight v) e.weight =
        e.weight * U16MAX / nodeMaxWeight v := by
      rw [scaleWeight, Nat.mod_eq_of_lt (hover e he)]
    have hle : scaleWeight (nodeMaxWeight v) e.weight ≤ U16MAX :=
      scaleWeight_le _ _ (le_nodeMaxWeight v e he) (hover e he) hMpos
    have hlt16 : scaleWeight (nodeMaxWeight v) e.weight < 2 ^ 16 := by
      have : U16MAX < 2 ^ 16 := by norm_num [U16MAX]
      omega
    have hlearn' : e.learn < 2 ^ 32 := hlearn (h, v) hGmem e he
    refine (tuples_roundTrip_perm G hkeys hmovs hhash hmov).mem_iff.2 ?_
    refine List.mem_map.2
      ⟨(h, { e with weight := scaleWeight (nodeMaxWeight v) e.weight }), hrec, ?_⟩
    show (h, e.mov, scaleWeight (nodeMaxWeight v) e.weight % 2 ^ 16, e.learn % 2 ^ 32) =
      (h, e.mov, e.weight * U16MAX / nodeMaxWeight v, e.learn)
    rw [Nat.mod_eq_of_lt hlt16, Nat.mod_eq_of_lt hlearn', hsc]
  · intro e1 _ e2 _ h12
    exact Nat.div_le_div_right (Nat.mul_le_mul_right _ h12)

/-- Closed instance of `binary_roundtrip_rescale`: max weight 140000, the
weight-70000 entry comes back as `70000 * 65535 / 140000 = 32767`. -/
theorem binary_roundtrip_rescale_witness :
    (0, 1, 32767, 3) ∈
      tuples (roundTrip [(0, [BookEntry.mk 1 none 70000 3, BookEntry.mk 2 none 140000 0])]) := by
  have happ := (binary_roundtrip_rescale
    [(0, [BookEntry.mk 1 none 70000 3, BookEntry.mk 2 none 140000 0])]
    (by decide) (by decide) (by decide) (by decide) (by decide) (by decide)
    0 [BookEntry.mk 1 none 70000 3, BookEntry.mk 2 none 140000 0]
    (by decide) (by decide) (by decide)).1 (BookEntry.mk 1 none 70000 3) (by decide)
  have : (70000 * U16MAX /
      nodeMaxWeight [BookEntry.mk 1 none 70000 3, BookEntry.mk 2 none 140000 0] : Nat) =
      32767 := by decide
  simpa [this] using happ

/-! ### The external chess engine and PGN data -/

/-- The external Position/Move engine (the spec's collaborator boundary):
hashing, move application, the 16-bit move codec and notation handling.
`Pos`, `San` and `Move` are opaque types; operations that `unwrap` a
`Result`/`Option` in the Rust callers are `Option`-valued here. -/
structure Engine (Pos San Move : Type) where
  startPos : Pos
  startHash : Nat
  hash : Pos → Nat
  sanToMove : Pos → San → Option Move
  play : Pos → Move → Option Pos
  playUnchecked : Pos → Move → Pos
  pack : Move → Nat
  unpack : Pos → Nat → Option Move
  sanPlusStr : Pos → Move → String
  sanStr : Pos → Move → String
  parseSan : String → Option San
  parseFen : String → Option Pos
  fenStr : Pos → String

/-- `shakmaty::Color`. -/
inductive Color where
  | white
  | black
deriving DecidableEq, Repr

/-- `shakmaty::Outcome` (`Decisive { winner }` or `Draw`; a PGN game with
an unknown result keeps the `PgnGame::new()` default `Draw`). -/
inductive Outcome where
  | decisive (winner : Color)
  | draw
deriving DecidableEq, Repr

/-- The fields of `PgnGame` that `add_game` consumes. -/
structure PgnGame (San : Type) where
  moves : List San
  outcome : Outcome

/-- The per-ply weight computed inside `BookMap::add_game`. -/
def gameWeight (frequency : Bool) (oc : Outcome) (ply : Nat) : Nat :=
  if frequency then 1
  else
    match oc with
    | Outcome.decisive winner =>
      if decide (winner = Color.white) = decide (ply % 2 = 0) then 2 else 0
    | Outcome.draw => 1

/-- The loop of `BookMap::add_game`: at each ply, hash the board before the
move, convert SAN to a move (`unwrap`), advance the board (`unwrap`), and
insert a combine-mode entry `{mov, depth = ply, weight, learn = 0}`. -/
def addGameAux {Pos San Move : Type} (E : Engine Pos San Move) (oc : Outcome)
    (frequency : Bool) :
    List San → Nat → Pos → BookMapData → Option BookMapData
  | [], _, _, m => some m
  | s :: rest, ply, board, m =>
    match E.sanToMove board s with
    | none => none
    | some mv =>
      match E.play board mv with
      | none => none
      | some board' =>
        addGameAux E oc frequency rest (ply + 1) board'
          (mapInsert m (E.hash board)
            (BookEntry.mk (E.pack mv) (some ply) (gameWeight frequency oc ply) 0))

/-- `BookMap::add_game(game, frequency, depth)`: fold the first `depth`
moves of the game from the standard start position. -/
def addGame {Pos San Move : Type} (E : Engine Pos San Move) (m : BookMapData)
    (game : PgnGame San) (frequency : Bool) (depth : Nat) : Option BookMapData :=
  addGameAux E game.outcome frequency (game.moves.take depth) 0 E.startPos m

/-- **C7.** With frequency mode off, ingesting a single two-move game won
by White with `max_ply = 10` into an empty book produces exactly two
entries: at the standard-start hash the first move with weight 2 and
depth 0, and at the post-first-move hash the second move with weight 0 and
depth 1; and for every game whose outcome is a draw or unknown the weight
computed at every ply is 1. -/
theorem add_game_scenario {Pos San Move : Type} (E : Engine Pos San Move)
    (s1 s2 : San) (m1 m2 : Move) (p1 p2 : Pos)
    (h1 : E.sanToMove E.startPos s1 = some m1)
    (hp1 : E.play E.startPos m1 = some p1)
    (h2 : E.sanToMove p1 s2 = some m2)
    (hp2 : E.play p1 m2 = some p2)
    (hne : E.hash E.startPos ≠ E.hash p1) :
    addGame E [] (PgnGame.mk [s1, s2] (Outcome.decisive Color.white)) false 10 =
      some [(E.hash E.startPos, [BookEntry.mk (E.pack m1) (some 0) 2 0]),
            (E.hash p1, [BookEntry.mk (E.pack m2) (some 1) 0 0])] ∧
    (∀ ply, gameWeight false Outcome.draw ply = 1) := by
  constructor
  · have hw0 : gameWeight false (Outcome.decisive Color.white) 0 = 2 := rfl
    have hw1 : gameWeight false (Outcome.decisive Color.white) 1 = 0 := rfl
    simp only [addGame, List.take, addGameAux, h1, hp1, h2, hp2, hw0, hw1]
    have hne' : ¬ E.hash E.startPos = E.hash p1 := hne
    simp [mapInsert, hne']
  · intro ply
    rfl

/-- A concrete instantiation of the engine interface for closed tests:
positions, SAN tokens and moves are all natural numbers. -/
def natEngine : Engine Nat Nat Nat where
  startPos := 0
  startHash := 0
  hash := id
  sanToMove _ s := some s
  play p m := some (p * 10 + m + 1)
  playUnchecked p m := p * 10 + m + 1
  pack := id
  unpack _ c := some c
  sanPlusStr _ m := toString m
  sanStr _ m := toString m
  parseSan s := s.toNat?
  parseFen _ := none
  fenStr _ := ""

/-- Closed instance of `add_game_scenario` over `natEngine`. -/
theorem add_game_scenario_witness :
    addGame natEngine [] (PgnGame.mk [4, 5] (Outcome.decisive Color.white)) false 10 =
      some [(0, [BookEntry.mk 4 (some 0) 2 0]), (5, [BookEntry.mk 5 (some 1) 0 0])] := by
  have happ := (add_game_scenario natEngine 4 5 4 5 5 56 rfl rfl rfl rfl (by decide)).1
  simpa [natEngine] using happ

/-! ### `BookMap::traverse_tree` -/

/-- Replace the node stored at a key (the effect of mutating through
`HashMap::get_mut`). -/
def mapSet : BookMapData → Nat → List BookEntry → BookMapData
  | [], _, _ => []
  | (k, v) :: rest, h, w => if k = h then (k, w) :: rest else (k, v) :: mapSet rest h w

/-- `HashMap::remove(&hash)`. -/
def mapRemove : BookMapData → Nat → BookMapData
  | [], _ => []
  | (k, v) :: rest, h => if k = h then rest else (k, v) :: mapRemove rest h

/-- In-place update of one list element (`entries[ind] = ..`-style
mutation). -/
def modifyAt : List α → Nat → (α → α) → List α
  | [], _, _ => []
  | x :: xs, 0, g => g x :: xs
  | x :: xs, i + 1, g => x :: modifyAt xs i g

/-- `BookMap::traverse_tree`, fuel-indexed.  The visitor
`f state stack_len pos entries ind` returns the new state and the
(possibly mutated) node, mirroring the `FnMut(usize, &Chess, &mut
Vec<BookEntry>, usize)` callback.  The result is `none` when the fuel runs
out before the stack empties or when a stored move fails to convert or
apply (the Rust `unwrap`s); otherwise it is the final map, the final
callback state, and the trace of `(hash, ind)` pairs the visitor was
invoked on (pure instrumentation: the trace influences nothing). -/
def traverseAux {Pos San Move C : Type} (E : Engine Pos San Move)
    (f : C → Nat → Pos → List BookEntry → Nat → C × List BookEntry) :
    Nat → BookMapData → List (Pos × Nat) → C →
      Option (BookMapData × C × List (Nat × Nat))
  | _, m, [], c => some (m, c, [])
  | 0, _, _ :: _, _ => none
  | fuel + 1, m, (pos, ind) :: stack, c =>
    match mapGet m (E.hash pos) with
    | none => traverseAux E f fuel m stack c
    | some entries =>
      if ind < entries.length then
        let r := f c stack.length pos entries ind
        let m' := mapSet m (E.hash pos) r.2
        let rest :=
          if h2 : ind < r.2.length then
            match E.unpack pos (r.2.get ⟨ind, h2⟩).mov with
            | none => none
            | some mv =>
              match E.play pos mv with
              | none => none
              | some child =>
                traverseAux E f fuel m' ((child, 0) :: (pos, ind + 1) :: stack) r.1
          else if r.2.isEmpty then
            traverseAux E f fuel (mapRemove m' (E.hash pos)) stack r.1
          else
            traverseAux E f fuel m' stack r.1
        rest.map (fun s => (s.1, s.2.1, (E.hash pos, ind) :: s.2.2))
      else if entries.isEmpty then
        traverseAux E f fuel (mapRemove m (E.hash pos)) stack c
      else
        traverseAux E f fuel m stack c

/-- `map_entries(|entry| entry.depth = None)`: the clearing pass at the
start of `set_depths`. -/
def clearDepths (m : BookMapData) : BookMapData :=
  m.map (fun p => (p.1, p.2.map (fun e => { e with depth := none })))

/-- The `set_depths` visitor: `entries[ind].depth = Some(depth)`. -/
def depthCallback {Pos : Type} :
    Unit → Nat → Pos → List BookEntry → Nat → Unit × List BookEntry :=
  fun _ depth _ entries ind =>
    ((), modifyAt entries ind (fun e => { e with depth := some depth }))

/-- `BookMap::set_depths` (fuel-indexed): clear every depth, then traverse
from the root writing `depth = stack_len` on each visited entry.  Returns
the resulting map and the visit trace. -/
def setDepths {Pos San Move : Type} (E : Engine Pos San Move) (fuel : Nat)
    (m : BookMapData) (root : Pos) : Option (BookMapData × List (Nat × Nat)) :=
  (traverseAux E depthCallback fuel (clearDepths m) [(root, 0)] ()).map
    (fun r => (r.1, r.2.2))

/-- `BookMap::filter(f)`: retain matching entries, drop emptied nodes. -/
def mapFilter (m : BookMapData) (pred : BookEntry → Bool) : BookMapData :=
  (m.map (fun p => (p.1, p.2.filter pred))).filter (fun p => !p.2.isEmpty)

/-- `BookMap::remove_disconnected`: `set_depths` then filter out entries
with `depth = none`. -/
def removeDisconnected {Pos San Move : Type} (E : Engine Pos San Move)
    (fuel : Nat) (m : BookMapData) (root : Pos) : Option BookMapData :=
  (setDepths E fuel m root).map (fun r => mapFilter r.1 (fun e => e.depth.isSome))

/-- The non-mutating visitor of the spec's Tree Walk. -/
def idCallback {Pos : Type} :
    Unit → Nat → Pos → List BookEntry → Nat → Unit × List BookEntry :=
  fun _ _ _ entries _ => ((), entries)

/-- A fresh Tree Walk (spec sec.4.2): `traverse_tree` with a visitor that
only observes; the result is the final map and the `(hash, ind)` visit
trace. -/
def treeWalk {Pos San Move : Type} (E : Engine Pos San Move) (fuel : Nat)
    (m : BookMapData) (root : Pos) : Option (BookMapData × List (Nat × Nat)) :=
  (traverseAux E idCallback fuel m [(root, 0)] ()).map (fun r => (r.1, r.2.2))

/-! ### The text, blob and JSON writers -/

/-- `s.repeat(n)`. -/
def repeatStr (s : String) (n : Nat) : String :=
  String.join (List.replicate n s)

/-- `while depth >= depths.len() { depths.push(0) }`. -/
def padTo (l : List Nat) (depth : Nat) : List Nat :=
  l ++ List.replicate (depth + 1 - l.length) 0

/-- `depths[i]` (in bounds at every use site after `padTo`). -/
def getD0 (l : List Nat) (i : Nat) : Nat := l.getD i 0

/-- `depths[i] = x`. -/
def setAt (l : List Nat) (i x : Nat) : List Nat := modifyAt l i (fun _ => x)

/-- The descending-by-weight comparison of
`sort_unstable_by_key(|entry| Reverse(entry.weight))`. -/
def weightDescLe (a b : BookEntry) : Bool := decide (b.weight ≤ a.weight)

/-- Writer state shared by the text and blob writers: the output, plus the
`last_weight`, `last_depth` and `depths` locals. -/
structure TxtState where
  out : String
  lastWeight : Nat
  lastDepth : Nat
  depths : List Nat
deriving Repr

/-- The `write_txt` visitor.  The Rust closure `unwrap`s the stored move;
if that conversion fails the surrounding `traverseAux` aborts with `none`
on the very same entry, so the `""` placeholder for the SAN text is never
observable. -/
def txtCallback {Pos San Move : Type} (E : Engine Pos San Move)
    (st : TxtState) (depth : Nat) (pos : Pos) (entries0 : List BookEntry)
    (ind : Nat) : TxtState × List BookEntry :=
  let entries := if ind = 0 then sortBy weightDescLe entries0 else entries0
  let onlyChild := entries.length = 1
  let e := entries.getD ind BookEntry.new
  let san :=
    match E.unpack pos e.mov with
    | some mv => E.sanPlusStr pos mv
    | none => ""
  let ds := padTo st.depths depth
  let ds2 :=
    if onlyChild then
      (if 0 < depth then setAt ds depth (getD0 ds (depth - 1)) else ds)
    else
      (if 0 < depth then setAt ds depth (getD0 ds (depth - 1) + 1) else ds)
  let out1 :=
    if onlyChild then st.out ++ ", "
    else
      (if depth < st.lastDepth then st.out ++ "\n" else st.out) ++
        "\n" ++ repeatStr "    " (getD0 ds2 depth)
  let lastDepth' := if onlyChild then st.lastDepth else depth
  let out2 :=
    if (e.weight ≠ 1 ∧ ¬onlyChild) ∨ (onlyChild ∧ e.weight ≠ st.lastWeight) then
      out1 ++ toString e.weight ++ " "
    else out1
  let out3 := out2 ++ san
  let out4 := if e.learn ≠ 0 then out3 ++ " " ++ toString e.learn else out3
  (TxtState.mk out4 e.weight lastDepth' ds2, entries)

/-- `BookMap::write_txt` (fuel-indexed): optional FEN line for a
non-standard root, then the traversal with `txtCallback`.  Returns the
final (possibly re-sorted) map and the output text. -/
def writeTxt {Pos San Move : Type} (E : Engine Pos San Move) (fuel : Nat)
    (m : BookMapData) (root : Pos) : Option (BookMapData × String) :=
  let pre := if E.hash root ≠ E.startHash then E.fenStr root ++ "\n" else ""
  (traverseAux E (txtCallback E) fuel m [(root, 0)] (TxtState.mk pre 0 0 [])).map
    (fun r => (r.1, r.2.1.out))

/-- The `write_blob` visitor (same structure as `txtCallback`, punctuation
instead of whitespace, `San` instead of `SanPlus`). -/
def blobCallback {Pos San Move : Type} (E : Engine Pos San Move)
    (st : TxtState) (depth : Nat) (pos : Pos) (entries0 : List BookEntry)
    (ind : Nat) : TxtState × List BookEntry :=
  let entries := if ind = 0 then sortBy weightDescLe entries0 else entries0
  let onlyChild := entries.length = 1
  let e := entries.getD ind BookEntry.new
  let san :=
    match E.unpack pos e.mov with
    | some mv => E.sanStr pos mv
    | none => ""
  let ds := padTo st.depths depth
  let ds2 :=
    if onlyChild then
      (if 0 < depth then setAt ds depth (getD0 ds (depth - 1)) else ds)
    else
      (if 0 < depth then setAt ds depth (getD0 ds (depth - 1) + 1) else ds)
  let out1 :=
    if onlyChild then st.out ++ ","
    else
      let o :=
        if depth < st.lastDepth then
          st.out ++ repeatStr ")" (getD0 ds2 st.lastDepth - getD0 ds2 depth)
        else st.out
      if ind = 0 ∧ depth = 0 then o
      else if ind = 0 then o ++ "("
      else if st.lastDepth ≤ depth then o ++ "/"
      else o
  let lastDepth' := if onlyChild then st.lastDepth else depth
  let out2 :=
    if (e.weight ≠ 1 ∧ ¬onlyChild) ∨ (onlyChild ∧ e.weight ≠ st.lastWeight) then
      out1 ++ toString e.weight
    else out1
  let out3 := out2 ++ san
  let out4 := if e.learn ≠ 0 then out3 ++ " " ++ toString e.learn else out3
  (TxtState.mk out4 e.weight lastDepth' ds2, entries)

/-- `BookMap::write_blob` (fuel-indexed). -/
def writeBlob {Pos San Move : Type} (E : Engine Pos San Move) (fuel : Nat)
    (m : BookMapData) (root : Pos) : Option (BookMapData × String) :=
  let pre := if E.hash root ≠ E.startHash then E.fenStr root ++ "\n" else ""
  (traverseAux E (blobCallback E) fuel m [(root, 0)] (TxtState.mk pre 0 0 [])).map
    (fun r => (r.1, r.2.1.out))

/-- Writer state of `write_json`: output and the `isize` local
`last_depth` (initially `-1`). -/
structure JsonState where
  out : String
  lastDepth : Int
deriving Repr

/-- The `write_json` visitor: no sort, no node mutation; only brace/comma
bookkeeping by comparing consecutive depths. -/
def jsonCallback {Pos San Move : Type} (E : Engine Pos San Move)
    (st : JsonState) (depth : Nat) (pos : Pos) (entries : List BookEntry)
    (ind : Nat) : JsonState × List BookEntry :=
  let e := entries.getD ind BookEntry.new
  let san :=
    match E.unpack pos e.mov with
    | some mv => E.sanStr pos mv
    | none => ""
  let out1 :=
    if (depth : Int) < st.lastDepth then
      st.out ++ repeatStr "\x7d\x7d" (st.lastDepth.toNat - depth + 1)
    else st.out
  let out2 := if (depth : Int) ≤ st.lastDepth then out1 ++ "," else out1
  let out3 := out2 ++ "\"" ++ san ++ "\":\x7b\"weight\":" ++ toString e.weight ++
    ",\"learn\":" ++ toString e.learn ++ ",\"children\":\x7b"
  (JsonState.mk out3 (depth : Int), entries)

/-- `BookMap::write_json` (fuel-indexed). -/
def writeJson {Pos San Move : Type} (E : Engine Pos San Move) (fuel : Nat)
    (m : BookMapData) (root : Pos) : Option (BookMapData × String) :=
  let pre := "\x7b\"rootFen\":" ++ (E.fenStr root).quote ++ ",\"tree\":\x7b"
  (traverseAux E (jsonCallback E) fuel m [(root, 0)] (JsonState.mk pre (-1))).map
    (fun r => (r.1, r.2.1.out ++ repeatStr "\x7d\x7d" (r.2.1.lastDepth.toNat + 2)))

/-! ### Frame lemmas for the traversal -/

theorem mapGet_mapSet_self (m : BookMapData) (h : Nat) (w v : List BookEntry)
    (hv : mapGet m h = some v) : mapGet (mapSet m h w) h = some w := by
  induction m with
  | nil => simp [mapGet] at hv
  | cons p rest ih =>
    obtain ⟨k, u⟩ := p
    by_cases hk : k = h
    · simp [mapSet, mapGet, hk]
    · rw [mapGet, if_neg hk] at hv
      simp [mapSet, mapGet, hk, ih hv]

theorem mapGet_mapSet_ne (m : BookMapData) (h : Nat) (w : List BookEntry)
    (h' : Nat) (hne : h' ≠ h) : mapGet (mapSet m h w) h' = mapGet m h' := by
  induction m with
  | nil => simp [mapSet, mapGet]
  | cons p rest ih =>
    obtain ⟨k, u⟩ := p
    by_cases hk : k = h
    · subst hk
      have : ¬ k = h' := fun hh => hne hh.symm
      simp [mapSet, mapGet, this]
    · by_cases hk' : k = h'
      · subst hk'
        simp [mapSet, mapGet, hk]
      · simp [mapSet, mapGet, hk, hk', ih]

theorem mapSet_self (m : BookMapData) (h : Nat) (v : List BookEntry)
    (hv : mapGet m h = some v) : mapSet m h v = m := by
  induction m with
  | nil => rfl
  | cons p rest ih =>
    obtain ⟨k, u⟩ := p
    by_cases hk : k = h
    · rw [mapGet, if_pos hk] at hv
      have := Option.some.inj hv
      subst this
      simp [mapSet, hk]
    · rw [mapGet, if_neg hk] at hv
      simp [mapSet, hk, ih hv]

/-- The node-evolution relation a traversal induces: keys are untouched
and every node evolves by `Q`-steps. -/
def MapRel (Q : List BookEntry → List BookEntry → Prop)
    (m m' : BookMapData) : Prop :=
  List.Forall₂ (fun p q => p.1 = q.1 ∧ Q p.2 q.2) m m'

theorem MapRel.refl (Q : List BookEntry → List BookEntry → Prop)
    (hQ : ∀ v, Q v v) (m : BookMapData) : MapRel Q m m := by
  induction m with
  | nil => exact List.Forall₂.nil
  | cons p rest ih => exact List.Forall₂.cons ⟨rfl, hQ p.2⟩ ih

theorem MapRel.trans {Q : List BookEntry → List BookEntry → Prop}
    (hQ : ∀ u v w, Q u v → Q v w → Q u w) {m1 m2 m3 : BookMapData}
    (h12 : MapRel Q m1 m2) (h23 : MapRel Q m2 m3) : MapRel Q m1 m3 := by
  induction h12 generalizing m3 with
  | nil =>
    cases h23
    exact List.Forall₂.nil
  | cons hpq hrest ih =>
    cases h23 with
    | cons hqr hrest' =>
      exact List.Forall₂.cons ⟨hpq.1.trans hqr.1, hQ _ _ _ hpq.2 hqr.2⟩ (ih hrest')

theorem MapRel.update {Q : List BookEntry → List BookEntry → Prop}
    (hQrefl : ∀ v, Q v v) (m : BookMapData) (h : Nat)
    (v w : List BookEntry) (hv : mapGet m h = some v) (hQ : Q v w) :
    MapRel Q m (mapSet m h w) := by
  induction m with
  | nil => simp [mapGet] at hv
  | cons p rest ih =>
    obtain ⟨k, u⟩ := p
    by_cases hk : k = h
    · rw [mapGet, if_pos hk] at hv
      have := Option.some.inj hv
      subst this
      rw [mapSet, if_pos hk]
      exact List.Forall₂.cons ⟨rfl, hQ⟩ (MapRel.refl Q hQrefl rest)
    · rw [mapGet, if_neg hk] at hv
      rw [mapSet, if_neg hk]
      exact List.Forall₂.cons ⟨rfl, hQrefl u⟩ (ih hv)

theorem MapRel.keys {Q : List BookEntry → List BookEntry → Prop}
    {m m' : BookMapData} (h : MapRel Q m m') :
    m'.map Prod.fst = m.map Prod.fst := by
  induction h with
  | nil => rfl
  | cons hpq _ ih => simp [ih, hpq.1]

theorem MapRel.get {Q : List BookEntry → List BookEntry → Prop}
    {m m' : BookMapData} (hrel : MapRel Q m m') (h : Nat) :
    (mapGet m h = none ∧ mapGet m' h = none) ∨
      ∃ v w, mapGet m h = some v ∧ mapGet m' h = some w ∧ Q v w := by
  induction hrel with
  | nil => exact Or.inl ⟨rfl, rfl⟩
  | @cons p q mt mt' hpq hrest ih =>
    obtain ⟨k, v⟩ := p
    obtain ⟨k', w⟩ := q
    obtain ⟨hkk, hQ⟩ := hpq
    simp only at hkk
    subst hkk
    by_cases hk : k = h
    · right
      exact ⟨v, w, by rw [mapGet, if_pos hk], by rw [mapGet, if_pos hk], hQ⟩
    · rw [mapGet, if_neg hk, mapGet, if_neg hk]
      exact ih

theorem mapGet_some_ne_nil (m : BookMapData) (h : Nat) (v : List BookEntry)
    (hne : ∀ p ∈ m, p.2 ≠ []) (hv : mapGet m h = some v) : v ≠ [] :=
  hne (h, v) (mapGet_mem m h v hv)

theorem MapRel.ne_nil {Q : List BookEntry → List BookEntry → Prop}
    (hQlen : ∀ v w, Q v w → w.length = v.length) {m m' : BookMapData}
    (hrel : MapRel Q m m') (hne : ∀ p ∈ m, p.2 ≠ []) :
    ∀ p ∈ m', p.2 ≠ [] := by
  induction hrel with
  | nil => simp
  | @cons p q mt mt' hpq hrest ih =>
    intro x hx
    rcases List.mem_cons.1 hx with hx | hx
    · subst hx
      have h1 : p.2 ≠ [] := hne p (by simp)
      have h2 := hQlen _ _ hpq.2
      intro hnil
      rw [hnil] at h2
      exact h1 (List.eq_nil_of_length_eq_zero h2.symm)
    · exact ih (fun y hy => hne y (by simp [hy])) x hx

/-! ### Step equations for `traverseAux` -/

theorem traverseAux_nil {Pos San Move C : Type} (E : Engine Pos San Move)
    (f : C → Nat → Pos → List BookEntry → Nat → C × List BookEntry)
    (fuel : Nat) (m : BookMapData) (c : C) :
    traverseAux E f fuel m [] c = some (m, c, []) := by
  cases fuel <;> rfl

theorem traverseAux_zero {Pos San Move C : Type} (E : Engine Pos San Move)
    (f : C → Nat → Pos → List BookEntry → Nat → C × List BookEntry)
    (m : BookMapData) (pos : Pos) (ind : Nat) (stack : List (Pos × Nat)) (c : C) :
    traverseAux E f 0 m ((pos, ind) :: stack) c = none := rfl

theorem traverseAux_miss {Pos San Move C : Type} (E : Engine Pos San Move)
    (f : C → Nat → Pos → List BookEntry → Nat → C × List BookEntry)
    (fuel : Nat) (m : BookMapData) (pos : Pos) (ind : Nat)
    (stack : List (Pos × Nat)) (c : C)
    (hg : mapGet m (E.hash pos) = none) :
    traverseAux E f (fuel + 1) m ((pos, ind) :: stack) c =
      traverseAux E f fuel m stack c := by
  simp only [traverseAux, hg]

theorem traverseAux_skip {Pos San Move C : Type} (E : Engine Pos San Move)
    (f : C → Nat → Pos → List BookEntry → Nat → C × List BookEntry)
    (fuel : Nat) (m : BookMapData) (pos : Pos) (ind : Nat)
    (stack : List (Pos × Nat)) (c : C) (entries : List BookEntry)
    (hg : mapGet m (E.hash pos) = some entries)
    (hlt : ¬ ind < entries.length) (hne : entries ≠ []) :
    traverseAux E f (fuel + 1) m ((pos, ind) :: stack) c =
      traverseAux E f fuel m stack c := by
  simp only [traverseAux, hg, if_neg hlt]
  rw [if_neg]
  simp [hne]

theorem traverseAux_visit {Pos San Move C : Type} (E : Engine Pos San Move)
    (f : C → Nat → Pos → List BookEntry → Nat → C × List BookEntry)
    (fuel : Nat) (m : BookMapData) (pos : Pos) (ind : Nat)
    (stack : List (Pos × Nat)) (c : C) (entries : List BookEntry)
    (hg : mapGet m (E.hash pos) = some entries)
    (hlt : ind < entries.length)
    (h2 : ind < (f c stack.length pos entries ind).2.length) :
    traverseAux E f (fuel + 1) m ((pos, ind) :: stack) c =
      (match E.unpack pos
          (((f c stack.length pos entries ind).2.get ⟨ind, h2⟩).mov) with
        | none => none
        | some mv =>
          match E.play pos mv with
          | none => none
          | some child =>
            traverseAux E f fuel
              (mapSet m (E.hash pos) (f c stack.length pos entries ind).2)
              ((child, 0) :: (pos, ind + 1) :: stack)
              (f c stack.length pos entries ind).1).map
        (fun s : BookMapData × C × List (Nat × Nat) =>
          (s.1, s.2.1, (E.hash pos, ind) :: s.2.2)) := by
  simp only [traverseAux, hg, if_pos hlt, dif_pos h2]

/-- Generic frame lemma for `traverse_tree`: if the visitor can only evolve
a node along a length-preserving relation `Q`, then a completed traversal
over a map with no empty nodes relates the initial and final maps pairwise
by `Q` (in particular no node is created or removed). -/
theorem traverseAux_mapRel {Pos San Move C : Type} (E : Engine Pos San Move)
    (f : C → Nat → Pos → List BookEntry → Nat → C × List BookEntry)
    (Q : List BookEntry → List BookEntry → Prop)
    (hQf : ∀ c sl p v i, Q v (f c sl p v i).2)
    (hQrefl : ∀ v, Q v v)
    (hQtrans : ∀ u v w, Q u v → Q v w → Q u w)
    (hQlen : ∀ v w, Q v w → w.length = v.length) :
    ∀ (fuel : Nat) (m : BookMapData) (stack : List (Pos × Nat)) (c : C)
      (res : BookMapData × C × List (Nat × Nat)),
      (∀ p ∈ m, p.2 ≠ []) →
      traverseAux E f fuel m stack c = some res →
      MapRel Q m res.1 := by
  intro fuel
  induction fuel with
  | zero =>
    intro m stack c res hne hrun
    cases stack with
    | nil =>
      rw [traverseAux_nil] at hrun
      cases hrun
      exact MapRel.refl Q hQrefl m
    | cons fr stack =>
      obtain ⟨pos, ind⟩ := fr
      rw [traverseAux_zero] at hrun
      cases hrun
  | succ fuel ih =>
    intro m stack c res hne hrun
    cases stack with
    | nil =>
      rw [traverseAux_nil] at hrun
      cases hrun
      exact MapRel.refl Q hQrefl m
    | cons fr stack =>
      obtain ⟨pos, ind⟩ := fr
      cases hg : mapGet m (E.hash pos) with
      | none =>
        rw [traverseAux_miss E f fuel m pos ind stack c hg] at hrun
        exact ih m stack c res hne hrun
      | some entries =>
        have hennil : entries ≠ [] := mapGet_some_ne_nil m _ entries hne hg
        by_cases hlt : ind < entries.length
        · have hQr : Q entries (f c stack.length pos entries ind).2 :=
            hQf c stack.length pos entries ind
          have h2 : ind < (f c stack.length pos entries ind).2.length := by
            rw [hQlen _ _ hQr]
            exact hlt
          rw [traverseAux_visit E f fuel m pos ind stack c entries hg hlt h2] at hrun
          cases hu : E.unpack pos
              (((f c stack.length pos entries ind).2.get ⟨ind, h2⟩).mov) with
          | none =>
            simp only [hu, Option.map_none'] at hrun
            cases hrun
          | some mv =>
            simp only [hu] at hrun
            cases hp : E.play pos mv with
            | none =>
              simp only [hp, Option.map_none'] at hrun
              cases hrun
            | some child =>
              simp only [hp] at hrun
              cases hrec : traverseAux E f fuel
                  (mapSet m (E.hash pos) (f c stack.length pos entries ind).2)
                  ((child, 0) :: (pos, ind + 1) :: stack)
                  (f c stack.length pos entries ind).1 with
              | none =>
                simp only [hrec, Option.map_none'] at hrun
                cases hrun
              | some s =>
                simp only [hrec, Option.map_some'] at hrun
                have hrel1 : MapRel Q m
                    (mapSet m (E.hash pos) (f c stack.length pos entries ind).2) :=
                  MapRel.update hQrefl m _ entries _ hg hQr
                have hne1 := MapRel.ne_nil hQlen hrel1 hne
                have hrel2 := ih _ _ _ s hne1 hrec
                cases hrun
                exact MapRel.trans hQtrans hrel1 hrel2
        · rw [traverseAux_skip E f fuel m pos ind stack c entries hg hlt hennil] at hrun
          exact ih m stack c res hne hrun

theorem MapRel.perm_getD {m m' : BookMapData}
    (hrel : MapRel (fun v w => w.Perm v) m m') (h : Nat) :
    ((mapGet m' h).getD []).Perm ((mapGet m h).getD []) := by
  rcases hrel.get h with ⟨h1, h2⟩ | ⟨v, w, h1, h2, hQ⟩
  · rw [h1, h2]
  · rw [h1, h2]
    exact hQ

theorem MapRel.eq_of_eq {m m' : BookMapData}
    (hrel : MapRel (fun v w => w = v) m m') : m' = m := by
  induction hrel with
  | nil => rfl
  | @cons p q mt mt' hpq hrest ih =>
    obtain ⟨k, v⟩ := p
    obtain ⟨k', w⟩ := q
    obtain ⟨h1, h2⟩ := hpq
    simp only at h1 h2
    subst h1
    subst h2
    rw [ih]

theorem txtCallback_snd {Pos San Move : Type} (E : Engine Pos San Move)
    (st : TxtState) (d : Nat) (pos : Pos) (v : List BookEntry) (i : Nat) :
    (txtCallback E st d pos v i).2 = if i = 0 then sortBy weightDescLe v else v := rfl

theorem blobCallback_snd {Pos San Move : Type} (E : Engine Pos San Move)
    (st : TxtState) (d : Nat) (pos : Pos) (v : List BookEntry) (i : Nat) :
    (blobCallback E st d pos v i).2 = if i = 0 then sortBy weightDescLe v else v := rfl

theorem jsonCallback_snd {Pos San Move : Type} (E : Engine Pos San Move)
    (st : JsonState) (d : Nat) (pos : Pos) (v : List BookEntry) (i : Nat) :
    (jsonCallback E st d pos v i).2 = v := rfl

/-- **C5 (counterexample to the claim as stated).** The text exporter's
descending-by-weight sort is *not* cosmetic: it reorders the stored entry
list in place (the callback sorts the node obtained through
`HashMap::get_mut`).  On a root node holding weights `[1, 5]` the map
comes back with the entries swapped. -/
theorem export_sort_mutates_counterexample :
    (writeTxt natEngine 10
        [(0, [BookEntry.mk 1 none 1 0, BookEntry.mk 2 none 5 0])] 0).map Prod.fst =
      some [(0, [BookEntry.mk 2 none 5 0, BookEntry.mk 1 none 1 0])] ∧
    [(0, [BookEntry.mk 2 none 5 0, BookEntry.mk 1 none 1 0])] ≠
      [(0, [BookEntry.mk 1 none 1 0, BookEntry.mk 2 none 5 0])] :=
  ⟨by decide, by decide⟩

/-- **C5 (amended).** Exporting a book whose nodes are all nonempty
neither adds nor removes map nodes and never touches `depth`: a completed
text or blob export leaves the key list unchanged and each node's entry
list a permutation of what it was (the in-place descending-weight sort is
the only mutation), and a completed JSON export leaves the map exactly
unchanged (it performs no sort). -/
theorem export_frame_effect {Pos San Move : Type} (E : Engine Pos San Move)
    (fuel : Nat) (m : BookMapData) (root : Pos)
    (hne : ∀ p ∈ m, p.2 ≠ []) :
    (∀ m' out, writeTxt E fuel m root = some (m', out) →
      m'.map Prod.fst = m.map Prod.fst ∧
      ∀ h, ((mapGet m' h).getD []).Perm ((mapGet m h).getD [])) ∧
    (∀ m' out, writeBlob E fuel m root = some (m', out) →
      m'.map Prod.fst = m.map Prod.fst ∧
      ∀ h, ((mapGet m' h).getD []).Perm ((mapGet m h).getD [])) ∧
    (∀ m' out, writeJson E fuel m root = some (m', out) → m' = m) := by
  have hQperm : ∀ (st : TxtState) (d : Nat) (pos : Pos) (v : List BookEntry) (i : Nat),
      ((txtCallback E st d pos v i).2).Perm v := by
    intro st d pos v i
    rw [txtCallback_snd]
    by_cases hi : i = 0
    · rw [if_pos hi]
      exact sortBy_perm _ v
    · rw [if_neg hi]
  have hQpermB : ∀ (st : TxtState) (d : Nat) (pos : Pos) (v : List BookEntry) (i : Nat),
      ((blobCallback E st d pos v i).2).Perm v := by
    intro st d pos v i
    rw [blobCallback_snd]
    by_cases hi : i = 0
    · rw [if_pos hi]
      exact sortBy_perm _ v
    · rw [if_neg hi]
  refine ⟨?_, ?_, ?_⟩
  · intro m' out hrun
    rw [writeTxt] at hrun
    cases hres : traverseAux E (txtCallback E) fuel m [(root, 0)]
        (TxtState.mk (if E.hash root ≠ E.startHash then E.fenStr root ++ "\n" else "") 0 0 []) with
    | none => rw [hres] at hrun; cases hrun
    | some res =>
      rw [hres, Option.map_some'] at hrun
      have hrel := traverseAux_mapRel E (txtCallback E) (fun v w => w.Perm v)
        hQperm (fun v => List.Perm.refl v)
        (fun u v w huv hvw => hvw.trans huv)
        (fun v w hq => hq.length_eq)
        fuel m [(root, 0)] _ res hne hres
      have hm' : m' = res.1 := by cases hrun; rfl
      subst hm'
      exact ⟨hrel.keys, fun h => hrel.perm_getD h⟩
  · intro m' out hrun
    rw [writeBlob] at hrun
    cases hres : traverseAux E (blobCallback E) fuel m [(root, 0)]
        (TxtState.mk (if E.hash root ≠ E.startHash then E.fenStr root ++ "\n" else "") 0 0 []) with
    | none => rw [hres] at hrun; cases hrun
    | some res =>
      rw [hres, Option.map_some'] at hrun
      have hrel := traverseAux_mapRel E (blobCallback E) (fun v w => w.Perm v)
        hQpermB (fun v => List.Perm.refl v)
        (fun u v w huv hvw => hvw.trans huv)
        (fun v w hq => hq.length_eq)
        fuel m [(root, 0)] _ res hne hres
      have hm' : m' = res.1 := by cases hrun; rfl
      subst hm'
      exact ⟨hrel.keys, fun h => hrel.perm_getD h⟩
  · intro m' out hrun
    rw [writeJson] at hrun
    cases hres : traverseAux E (jsonCallback E) fuel m [(root, 0)]
        (JsonState.mk ("\x7b\"rootFen\":" ++ (E.fenStr root).quote ++ ",\"tree\":\x7b") (-1)) with
    | none => rw [hres] at hrun; cases hrun
    | some res =>
      rw [hres, Option.map_some'] at hrun
      have hrel := traverseAux_mapRel E (jsonCallback E) (fun v w => w = v)
        (fun c sl p v i => jsonCallback_snd E c sl p v i)
        (fun v => rfl) (fun u v w huv hvw => hvw.trans huv)
        (fun v w hq => by rw [hq])
        fuel m [(root, 0)] _ res hne hres
      have hm' : m' = res.1 := by cases hrun; rfl
      subst hm'
      exact hrel.eq_of_eq

/-- Closed instance of `export_frame_effect` (JSON part): a JSON export
leaves the concrete two-entry map untouched. -/
theorem export_frame_effect_witness :
    (writeJson natEngine 10
        [(0, [BookEntry.mk 1 none 1 0, BookEntry.mk 2 none 5 0])] 0).map Prod.fst =
      some [(0, [BookEntry.mk 1 none 1 0, BookEntry.mk 2 none 5 0])] := by
  cases hj : writeJson natEngine 10
      [(0, [BookEntry.mk 1 none 1 0, BookEntry.mk 2 none 5 0])] 0 with
  | none =>
    have hsome : (writeJson natEngine 10
        [(0, [BookEntry.mk 1 none 1 0, BookEntry.mk 2 none 5 0])] 0).isSome = true := by
      decide
    rw [hj] at hsome
    cases hsome
  | some r =>
    have hm := (export_frame_effect natEngine 10
        [(0, [BookEntry.mk 1 none 1 0, BookEntry.mk 2 none 5 0])] 0 (by decide)).2.2
        r.1 r.2 (by rw [hj])
    rw [Option.map_some', hm]

/-! ### `remove_disconnected` and the Tree Walk: depth marking -/

/-- Forget the (derived) depth fields of a node. -/
def eraseDepths (v : List BookEntry) : List BookEntry :=
  v.map (fun e => { e with depth := none })

theorem eraseDepths_length (v : List BookEntry) :
    (eraseDepths v).length = v.length := List.length_map _ _

theorem eraseDepths_modifyAt_depth (v : List BookEntry) (i d : Nat) :
    eraseDepths (modifyAt v i (fun e => { e with depth := some d })) =
      eraseDepths v := by
  induction v generalizing i with
  | nil => rfl
  | cons x xs ih =>
    cases i with
    | zero => simp [modifyAt, eraseDepths]
    | succ j => simp [modifyAt, eraseDepths, ih j, eraseDepths] at ih ⊢; exact ih j

theorem modifyAt_length {α : Type} (v : List α) (i : Nat) (g : α → α) :
    (modifyAt v i g).length = v.length := by
  induction v generalizing i with
  | nil => rfl
  | cons x xs ih =>
    cases i with
    | zero => rfl
    | succ j => simpa [modifyAt] using ih j

theorem modifyAt_get?_ne {α : Type} (v : List α) (ind i : Nat) (g : α → α)
    (hne : i ≠ ind) : (modifyAt v ind g).get? i = v.get? i := by
  induction v generalizing ind i with
  | nil => rfl
  | cons x xs ih =>
    cases ind with
    | zero =>
      cases i with
      | zero => exact absurd rfl hne
      | succ j => simp [modifyAt]
    | succ k =>
      cases i with
      | zero => simp [modifyAt]
      | succ j =>
        simp only [modifyAt, List.get?]
        exact ih k j (fun hjk => hne (by rw [hjk]))

theorem modifyAt_get?_eq {α : Type} (v : List α) (ind : Nat) (g : α → α) :
    (modifyAt v ind g).get? ind = (v.get? ind).map g := by
  induction v generalizing ind with
  | nil => rfl
  | cons x xs ih =>
    cases ind with
    | zero => simp [modifyAt]
    | succ k => simpa [modifyAt] using ih k

theorem eraseDepths_get?_mov (v w : List BookEntry)
    (h : eraseDepths v = eraseDepths w) (i : Nat) (e e' : BookEntry)
    (hv : v.get? i = some e) (hw : w.get? i = some e') : e.mov = e'.mov := by
  have h1 : (eraseDepths v).get? i = some { e with depth := none } := by
    rw [eraseDepths, List.get?_map, hv, Option.map_some']
  have h2 : (eraseDepths w).get? i = some { e' with depth := none } := by
    rw [eraseDepths, List.get?_map, hw, Option.map_some']
  rw [h, h2] at h1
  have h3 := Option.some.inj h1
  have h4 : ({ e' with depth := none } : BookEntry).mov =
      ({ e with depth := none } : BookEntry).mov := congrArg BookEntry.mov h3
  exact h4.symm

/-- The proposition "the entry at index `i` of node `h` has its depth
set". -/
def depthSome (m : BookMapData) (h i : Nat) : Prop :=
  ∃ v, mapGet m h = some v ∧ ∃ e, v.get? i = some e ∧ e.depth.isSome

theorem clearDepths_mapGet (m : BookMapData) (h : Nat) :
    mapGet (clearDepths m) h = (mapGet m h).map eraseDepths := by
  induction m with
  | nil => simp [clearDepths, mapGet]
  | cons p rest ih =>
    obtain ⟨k, v⟩ := p
    by_cases hk : k = h
    · simp [clearDepths, mapGet, hk, eraseDepths]
    · simpa [clearDepths, mapGet, hk, eraseDepths] using ih

theorem clearDepths_not_depthSome (m : BookMapData) (h i : Nat) :
    ¬ depthSome (clearDepths m) h i := by
  rintro ⟨v, hv, e, he, hd⟩
  rw [clearDepths_mapGet] at hv
  cases hm : mapGet m h with
  | none => rw [hm] at hv; cases hv
  | some w =>
    rw [hm, Option.map_some'] at hv
    have hv' := Option.some.inj hv
    subst hv'
    rw [eraseDepths, List.get?_map] at he
    cases hw : w.get? i with
    | none => rw [hw] at he; cases he
    | some e' =>
      rw [hw, Option.map_some'] at he
      have := Option.some.inj he
      subst this
      simp at hd

theorem clearDepths_ne_nil (m : BookMapData) (hne : ∀ p ∈ m, p.2 ≠ []) :
    ∀ p ∈ clearDepths m, p.2 ≠ [] := by
  intro p hp
  obtain ⟨q, hq, hpq⟩ := List.mem_map.1 hp
  subst hpq
  simp only [eraseDepths, ne_eq, List.map_eq_nil_iff]
  exact hne q hq

theorem clearDepths_keys (m : BookMapData) :
    (clearDepths m).map Prod.fst = m.map Prod.fst := by
  rw [clearDepths, List.map_map]
  exact List.map_congr_left (fun p _ => rfl)

/-- Effect of one depth-write on the marking predicate. -/
theorem depthSome_update (m : BookMapData) (h0 ind d : Nat)
    (entries : List BookEntry) (hg : mapGet m h0 = some entries)
    (hlt : ind < entries.length) (h i : Nat) :
    depthSome
        (mapSet m h0 (modifyAt entries ind (fun e => { e with depth := some d }))) h i ↔
      (depthSome m h i ∨ (h = h0 ∧ i = ind)) := by
  by_cases hh : h = h0
  · subst hh
    have hset := mapGet_mapSet_self m h
      (modifyAt entries ind (fun e => { e with depth := some d })) entries hg
    constructor
    · rintro ⟨v, hv, e, he, hd⟩
      rw [hset] at hv
      have hv' := Option.some.inj hv
      subst hv'
      by_cases hi : i = ind
      · exact Or.inr ⟨rfl, hi⟩
      · rw [modifyAt_get?_ne entries ind i _ hi] at he
        exact Or.inl ⟨entries, hg, e, he, hd⟩
    · rintro (⟨v, hv, e, he, hd⟩ | ⟨-, hi⟩)
      · rw [hg] at hv
        have hv' := Option.some.inj hv
        subst hv'
        refine ⟨_, hset, ?_⟩
        by_cases hi : i = ind
        · subst hi
          refine ⟨{ e with depth := some d }, ?_, by simp⟩
          rw [modifyAt_get?_eq, he, Option.map_some']
        · refine ⟨e, ?_, hd⟩
          rw [modifyAt_get?_ne entries ind i _ hi]
          exact he
      · subst hi
        refine ⟨_, hset, { entries.get ⟨i, hlt⟩ with depth := some d }, ?_, by simp⟩
        rw [modifyAt_get?_eq, List.get?_eq_get hlt, Option.map_some']
  · rw [depthSome, depthSome]
    rw [mapGet_mapSet_ne m h0 _ h hh]
    constructor
    · exact fun hx => Or.inl hx
    · rintro (hx | ⟨hh0, -⟩)
      · exact hx
      · exact absurd hh0 hh

theorem depthCallback_snd {Pos : Type} (c : Unit) (sl : Nat) (pos : Pos)
    (v : List BookEntry) (i : Nat) :
    (depthCallback c sl pos v i).2 =
      modifyAt v i (fun e => { e with depth := some sl }) := rfl

/-- The depth-erasure node relation used to track the depth walk's shape. -/
def EraseRel (v w : List BookEntry) : Prop := eraseDepths w = eraseDepths v

theorem EraseRel.len : ∀ v w, EraseRel v w → w.length = v.length := by
  intro v w hq
  rw [← eraseDepths_length w, hq, eraseDepths_length]

theorem EraseRel.depthCB {Pos : Type} :
    ∀ (c : Unit) (sl : Nat) (p : Pos) (v : List BookEntry) (i : Nat),
      EraseRel v (depthCallback c sl p v i).2 := by
  intro c sl p v i
  rw [depthCallback_snd]
  exact eraseDepths_modifyAt_depth v i sl

theorem EraseRel.rfl : ∀ v, EraseRel v v := fun _ => Eq.refl _

theorem EraseRel.comp : ∀ u v w, EraseRel u v → EraseRel v w → EraseRel u w := by
  intro u v w h1 h2
  exact h2.trans h1

/-- The depth walk marks exactly the visited `(hash, ind)` pairs (on top
of whatever was already marked). -/
theorem traverseAux_depth_mark {Pos San Move : Type} (E : Engine Pos San Move) :
    ∀ (fuel : Nat) (m : BookMapData) (stack : List (Pos × Nat)) (c : Unit)
      (res : BookMapData × Unit × List (Nat × Nat)),
      (∀ p ∈ m, p.2 ≠ []) →
      traverseAux E depthCallback fuel m stack c = some res →
      ∀ h i, depthSome res.1 h i ↔ (depthSome m h i ∨ (h, i) ∈ res.2.2) := by
  intro fuel
  induction fuel with
  | zero =>
    intro m stack c res hne hrun h i
    cases stack with
    | nil =>
      rw [traverseAux_nil] at hrun
      cases hrun
      simp
    | cons fr stack =>
      obtain ⟨pos, ind⟩ := fr
      rw [traverseAux_zero] at hrun
      cases hrun
  | succ fuel ih =>
    intro m stack c res hne hrun h i
    cases stack with
    | nil =>
      rw [traverseAux_nil] at hrun
      cases hrun
      simp
    | cons fr stack =>
      obtain ⟨pos, ind⟩ := fr
      cases hg : mapGet m (E.hash pos) with
      | none =>
        rw [traverseAux_miss E depthCallback fuel m pos ind stack c hg] at hrun
        exact ih m stack c res hne hrun h i
      | some entries =>
        have hennil : entries ≠ [] := mapGet_some_ne_nil m _ entries hne hg
        by_cases hlt : ind < entries.length
        · have h2 : ind < (depthCallback c stack.length pos entries ind).2.length := by
            rw [depthCallback_snd, modifyAt_length]
            exact hlt
          rw [traverseAux_visit E depthCallback fuel m pos ind stack c entries hg hlt h2]
            at hrun
          cases hu : E.unpack pos
              (((depthCallback c stack.length pos entries ind).2.get ⟨ind, h2⟩).mov) with
          | none =>
            simp only [hu, Option.map_none'] at hrun
            cases hrun
          | some mv =>
            simp only [hu] at hrun
            cases hp : E.play pos mv with
            | none =>
              simp only [hp, Option.map_none'] at hrun
              cases hrun
            | some child =>
              simp only [hp] at hrun
              cases hrec : traverseAux E depthCallback fuel
                  (mapSet m (E.hash pos) (depthCallback c stack.length pos entries ind).2)
                  ((child, 0) :: (pos, ind + 1) :: stack)
                  (depthCallback c stack.length pos entries ind).1 with
              | none =>
                simp only [hrec, Option.map_none'] at hrun
                cases hrun
              | some s =>
                simp only [hrec, Option.map_some'] at hrun
                have hrel1 : MapRel EraseRel m
                    (mapSet m (E.hash pos) (depthCallback c stack.length pos entries ind).2) :=
                  MapRel.update EraseRel.rfl m _ entries _ hg
                    (EraseRel.depthCB c stack.length pos entries ind)
                have hne1 := MapRel.ne_nil EraseRel.len hrel1 hne
                have hstep := depthSome_update m (E.hash pos) ind stack.length entries hg hlt h i
                rw [← depthCallback_snd c stack.length pos entries ind] at hstep
                have hih := ih _ _ _ s hne1 hrec h i
                cases hrun
                rw [hih, hstep]
                constructor
                · rintro ((hd | ⟨hh, hi⟩) | htr)
                  · exact Or.inl hd
                  · subst hh
                    subst hi
                    exact Or.inr (by simp)
                  · exact Or.inr (List.mem_cons_of_mem _ htr)
                · rintro (hd | htr)
                  · exact Or.inl (Or.inl hd)
                  · rcases List.mem_cons.1 htr with heq | htr'
                    · have h1 : h = E.hash pos := congrArg Prod.fst heq
                      have h2' : i = ind := congrArg Prod.snd heq
                      exact Or.inl (Or.inr ⟨h1, h2'⟩)
                    · exact Or.inr htr'
        · rw [traverseAux_skip E depthCallback fuel m pos ind stack c entries hg hlt hennil]
            at hrun
          exact ih m stack c res hne hrun h i

/-- Every visited `(hash, ind)` pair addresses a real entry of the map the
walk started from. -/
theorem traverseAux_visits_lt {Pos San Move : Type} (E : Engine Pos San Move) :
    ∀ (fuel : Nat) (m : BookMapData) (stack : List (Pos × Nat)) (c : Unit)
      (res : BookMapData × Unit × List (Nat × Nat)),
      (∀ p ∈ m, p.2 ≠ []) →
      traverseAux E depthCallback fuel m stack c = some res →
      ∀ h i, (h, i) ∈ res.2.2 → ∃ v, mapGet m h = some v ∧ i < v.length := by
  intro fuel
  induction fuel with
  | zero =>
    intro m stack c res hne hrun h i hmem
    cases stack with
    | nil =>
      rw [traverseAux_nil] at hrun
      cases hrun
      simp at hmem
    | cons fr stack =>
      obtain ⟨pos, ind⟩ := fr
      rw [traverseAux_zero] at hrun
      cases hrun
  | succ fuel ih =>
    intro m stack c res hne hrun h i hmem
    cases stack with
    | nil =>
      rw [traverseAux_nil] at hrun
      cases hrun
      simp at hmem
    | cons fr stack =>
      obtain ⟨pos, ind⟩ := fr
      cases hg : mapGet m (E.hash pos) with
      | none =>
        rw [traverseAux_miss E depthCallback fuel m pos ind stack c hg] at hrun
        exact ih m stack c res hne hrun h i hmem
      | some entries =>
        have hennil : entries ≠ [] := mapGet_some_ne_nil m _ entries hne hg
        by_cases hlt : ind < entries.length
        · have h2 : ind < (depthCallback c stack.length pos entries ind).2.length := by
            rw [depthCallback_snd, modifyAt_length]
            exact hlt
          rw [traverseAux_visit E depthCallback fuel m pos ind stack c entries hg hlt h2]
            at hrun
          cases hu : E.unpack pos
              (((depthCallback c stack.length pos entries ind).2.get ⟨ind, h2⟩).mov) with
          | none =>
            simp only [hu, Option.map_none'] at hrun
            cases hrun
          | some mv =>
            simp only [hu] at hrun
            cases hp : E.play pos mv with
            | none =>
              simp only [hp, Option.map_none'] at hrun
              cases hrun
            | some child =>
              simp only [hp] at hrun
              cases hrec : traverseAux E depthCallback fuel
                  (mapSet m (E.hash pos) (depthCallback c stack.length pos entries ind).2)
                  ((child, 0) :: (pos, ind + 1) :: stack)
                  (depthCallback c stack.length pos entries ind).1 with
              | none =>
                simp only [hrec, Option.map_none'] at hrun
                cases hrun
              | some s =>
                simp only [hrec, Option.map_some'] at hrun
                have hrel1 : MapRel EraseRel m
                    (mapSet m (E.hash pos) (depthCallback c stack.length pos entries ind).2) :=
                  MapRel.update EraseRel.rfl m _ entries _ hg
                    (EraseRel.depthCB c stack.length pos entries ind)
                have hne1 := MapRel.ne_nil EraseRel.len hrel1 hne
                cases hrun
                rcases List.mem_cons.1 hmem with heq | htr
                · have h1 : h = E.hash pos := congrArg Prod.fst heq
                  have h2' : i = ind := congrArg Prod.snd heq
                  subst h1
                  subst h2'
                  exact ⟨entries, hg, hlt⟩
                · obtain ⟨v1, hv1, hlen1⟩ := ih _ _ _ s hne1 hrec h i htr
                  rcases (hrel1.get h) with ⟨ha, hb⟩ | ⟨v, w, ha, hb, hQ⟩
                  · rw [hb] at hv1
                    cases hv1
                  · rw [hb] at hv1
                    have hw := Option.some.inj hv1
                    refine ⟨v, ha, ?_⟩
                    rw [← EraseRel.len v w hQ, hw]
                    exact hlen1
        · rw [traverseAux_skip E depthCallback fuel m pos ind stack c entries hg hlt hennil]
            at hrun
          exact ih m stack c res hne hrun h i hmem

/-- Downward closure of the visit trace: a visit at index `i + 1` is
preceded by a visit at index `i` (or was justified by a frame already on
the stack). -/
theorem traverseAux_chain {Pos San Move : Type} (E : Engine Pos San Move) :
    ∀ (fuel : Nat) (m : BookMapData) (stack : List (Pos × Nat)) (c : Unit)
      (res : BookMapData × Unit × List (Nat × Nat)) (S : List (Nat × Nat)),
      (∀ p ∈ m, p.2 ≠ []) →
      (∀ pr ∈ stack, ∀ j : Nat, pr.2 = j + 1 → (E.hash pr.1, j) ∈ S) →
      traverseAux E depthCallback fuel m stack c = some res →
      ∀ h i, (h, i + 1) ∈ res.2.2 → (h, i) ∈ S ∨ (h, i) ∈ res.2.2 := by
  intro fuel
  induction fuel with
  | zero =>
    intro m stack c res S hne hstack hrun h i hmem
    cases stack with
    | nil =>
      rw [traverseAux_nil] at hrun
      cases hrun
      simp at hmem
    | cons fr stack =>
      obtain ⟨pos, ind⟩ := fr
      rw [traverseAux_zero] at hrun
      cases hrun
  | succ fuel ih =>
    intro m stack c res S hne hstack hrun h i hmem
    cases stack with
    | nil =>
      rw [traverseAux_nil] at hrun
      cases hrun
      simp at hmem
    | cons fr stack =>
      obtain ⟨pos, ind⟩ := fr
      cases hg : mapGet m (E.hash pos) with
      | none =>
        rw [traverseAux_miss E depthCallback fuel m pos ind stack c hg] at hrun
        exact ih m stack c res S hne
          (fun pr hpr => hstack pr (List.mem_cons_of_mem _ hpr)) hrun h i hmem
      | some entries =>
        have hennil : entries ≠ [] := mapGet_some_ne_nil m _ entries hne hg
        by_cases hlt : ind < entries.length
        · have h2 : ind < (depthCallback c stack.length pos entries ind).2.length := by
            rw [depthCallback_snd, modifyAt_length]
            exact hlt
          rw [traverseAux_visit E depthCallback fuel m pos ind stack c entries hg hlt h2]
            at hrun
          cases hu : E.unpack pos
              (((depthCallback c stack.length pos entries ind).2.get ⟨ind, h2⟩).mov) with
          | none =>
            simp only [hu, Option.map_none'] at hrun
            cases hrun
          | some mv =>
            simp only [hu] at hrun
            cases hp : E.play pos mv with
            | none =>
              simp only [hp, Option.map_none'] at hrun
              cases hrun
            | some child =>
              simp only [hp] at hrun
              cases hrec : traverseAux E depthCallback fuel
                  (mapSet m (E.hash pos) (depthCallback c stack.length pos entries ind).2)
                  ((child, 0) :: (pos, ind + 1) :: stack)
                  (depthCallback c stack.length pos entries ind).1 with
              | none =>
                simp only [hrec, Option.map_none'] at hrun
                cases hrun
              | some s =>
                simp only [hrec, Option.map_some'] at hrun
                have hrel1 : MapRel EraseRel m
                    (mapSet m (E.hash pos) (depthCallback c stack.length pos entries ind).2) :=
                  MapRel.update EraseRel.rfl m _ entries _ hg
                    (EraseRel.depthCB c stack.length pos entries ind)
                have hne1 := MapRel.ne_nil EraseRel.len hrel1 hne
                have hstack' : ∀ pr ∈ ((child, 0) :: (pos, ind + 1) :: stack),
                    ∀ j : Nat, pr.2 = j + 1 →
                      (E.hash pr.1, j) ∈ ((E.hash pos, ind) :: S) := by
                  intro pr hpr j hj
                  rcases List.mem_cons.1 hpr with heq | hpr'
                  · subst heq
                    cases hj
                  · rcases List.mem_cons.1 hpr' with heq | hpr''
                    · subst heq
                      simp only at hj
                      have : ind = j := Nat.succ.inj hj
                      subst this
                      exact List.mem_cons_self _ _
                    · exact List.mem_cons_of_mem _
                        (hstack pr (List.mem_cons_of_mem _ hpr'') j hj)
                have hih := ih _ _ _ s ((E.hash pos, ind) :: S) hne1 hstack' hrec h i
                cases hrun
                rcases List.mem_cons.1 hmem with heq | htr
                · have hh : h = E.hash pos := congrArg Prod.fst heq
                  have hieq : i + 1 = ind := congrArg Prod.snd heq
                  subst hh
                  left
                  exact hstack (pos, ind) (List.mem_cons_self _ _) i hieq.symm
                · rcases hih htr with hS' | htr'
                  · rcases List.mem_cons.1 hS' with heq | hS
                    · exact Or.inr (by rw [heq]; exact List.mem_cons_self _ _)
                    · exact Or.inl hS
                  · exact Or.inr (List.mem_cons_of_mem _ htr')
        · rw [traverseAux_skip E depthCallback fuel m pos ind stack c entries hg hlt hennil]
            at hrun
          exact ih m stack c res S hne
            (fun pr hpr => hstack pr (List.mem_cons_of_mem _ hpr)) hrun h i hmem

/-- A completed walk processes every stack frame: all indices from the
frame's resume index to the end of its node get visited. -/
theorem traverseAux_processes {Pos San Move : Type} (E : Engine Pos San Move) :
    ∀ (fuel : Nat) (m : BookMapData) (stack : List (Pos × Nat)) (c : Unit)
      (res : BookMapData × Unit × List (Nat × Nat)),
      (∀ p ∈ m, p.2 ≠ []) →
      traverseAux E depthCallback fuel m stack c = some res →
      ∀ pr ∈ stack, ∀ v, mapGet m (E.hash pr.1) = some v →
        ∀ j, pr.2 ≤ j → j < v.length → (E.hash pr.1, j) ∈ res.2.2 := by
  intro fuel
  induction fuel with
  | zero =>
    intro m stack c res hne hrun pr hpr v hv j hj1 hj2
    cases stack with
    | nil => simp at hpr
    | cons fr stack =>
      obtain ⟨pos, ind⟩ := fr
      rw [traverseAux_zero] at hrun
      cases hrun
  | succ fuel ih =>
    intro m stack c res hne hrun pr hpr v hv j hj1 hj2
    cases stack with
    | nil => simp at hpr
    | cons fr stack =>
      obtain ⟨pos, ind⟩ := fr
      cases hg : mapGet m (E.hash pos) with
      | none =>
        rw [traverseAux_miss E depthCallback fuel m pos ind stack c hg] at hrun
        rcases List.mem_cons.1 hpr with heq | hpr'
        · subst heq
          rw [hg] at hv
          cases hv
        · exact ih m stack c res hne hrun pr hpr' v hv j hj1 hj2
      | some entries =>
        have hennil : entries ≠ [] := mapGet_some_ne_nil m _ entries hne hg
        by_cases hlt : ind < entries.length
        · have h2 : ind < (depthCallback c stack.length pos entries ind).2.length := by
            rw [depthCallback_snd, modifyAt_length]
            exact hlt
          rw [traverseAux_visit E depthCallback fuel m pos ind stack c entries hg hlt h2]
            at hrun
          cases hu : E.unpack pos
              (((depthCallback c stack.length pos entries ind).2.get ⟨ind, h2⟩).mov) with
          | none =>
            simp only [hu, Option.map_none'] at hrun
            cases hrun
          | some mv =>
            simp only [hu] at hrun
            cases hp : E.play pos mv with
            | none =>
              simp only [hp, Option.map_none'] at hrun
              cases hrun
            | some child =>
              simp only [hp] at hrun
              cases hrec : traverseAux E depthCallback fuel
                  (mapSet m (E.hash pos) (depthCallback c stack.length pos entries ind).2)
                  ((child, 0) :: (pos, ind + 1) :: stack)
                  (depthCallback c stack.length pos entries ind).1 with
              | none =>
                simp only [hrec, Option.map_none'] at hrun
                cases hrun
              | some s =>
                simp only [hrec, Option.map_some'] at hrun
                have hrel1 : MapRel EraseRel m
                    (mapSet m (E.hash pos) (depthCallback c stack.length pos entries ind).2) :=
                  MapRel.update EraseRel.rfl m _ entries _ hg
                    (EraseRel.depthCB c stack.length pos entries ind)
                have hne1 := MapRel.ne_nil EraseRel.len hrel1 hne
                have hset := mapGet_mapSet_self m (E.hash pos)
                  (depthCallback c stack.length pos entries ind).2 entries hg
                have hlen : (depthCallback c stack.length pos entries ind).2.length =
                    entries.length := by
                  rw [depthCallback_snd, modifyAt_length]
                cases hrun
                rcases List.mem_cons.1 hpr with heq | hpr'
                · -- the popped frame itself
                  subst heq
                  rw [hg] at hv
                  have hv' := Option.some.inj hv
                  subst hv'
                  rcases Nat.eq_or_lt_of_le hj1 with heq2 | hlt2
                  · subst heq2
                    exact List.mem_cons_self _ _
                  · have := ih _ _ _ s hne1 hrec (pos, ind + 1)
                      (List.mem_cons_of_mem _ (List.mem_cons_self _ _))
                      (depthCallback c stack.length pos entries ind).2 hset j
                      hlt2 (by rw [hlen]; exact hj2)
                    exact List.mem_cons_of_mem _ this
                · -- a deeper frame
                  by_cases hhash : E.hash pr.1 = E.hash pos
                  · rw [hhash, hg] at hv
                    have hv' := Option.some.inj hv
                    subst hv'
                    have := ih _ _ _ s hne1 hrec pr
                      (List.mem_cons_of_mem _ (List.mem_cons_of_mem _ hpr'))
                      (depthCallback c stack.length pos entries ind).2
                      (by rw [hhash]; exact hset) j hj1 (by rw [hlen]; exact hj2)
                    exact List.mem_cons_of_mem _ this
                  · have hget := mapGet_mapSet_ne m (E.hash pos)
                      (depthCallback c stack.length pos entries ind).2 (E.hash pr.1) hhash
                    have := ih _ _ _ s hne1 hrec pr
                      (List.mem_cons_of_mem _ (List.mem_cons_of_mem _ hpr'))
                      v (by rw [hget]; exact hv) j hj1 hj2
                    exact List.mem_cons_of_mem _ this
        · rw [traverseAux_skip E depthCallback fuel m pos ind stack c entries hg hlt hennil]
            at hrun
          rcases List.mem_cons.1 hpr with heq | hpr'
          · subst heq
            rw [hg] at hv
            have hv' := Option.some.inj hv
            subst hv'
            exact absurd (Nat.lt_of_le_of_lt hj1 hj2) hlt
          · exact ih m stack c res hne hrun pr hpr' v hv j hj1 hj2

/-- Upward closure of the visit trace: once `(h, i)` is visited, every
index of that node from `i` upward is visited. -/
theorem traverseAux_upward {Pos San Move : Type} (E : Engine Pos San Move) :
    ∀ (fuel : Nat) (m : BookMapData) (stack : List (Pos × Nat)) (c : Unit)
      (res : BookMapData × Unit × List (Nat × Nat)),
      (∀ p ∈ m, p.2 ≠ []) →
      traverseAux E depthCallback fuel m stack c = some res →
      ∀ h i, (h, i) ∈ res.2.2 → ∀ v, mapGet m h = some v →
        ∀ j, i ≤ j → j < v.length → (h, j) ∈ res.2.2 := by
  intro fuel
  induction fuel with
  | zero =>
    intro m stack c res hne hrun h i hmem v hv j hj1 hj2
    cases stack with
    | nil =>
      rw [traverseAux_nil] at hrun
      cases hrun
      simp at hmem
    | cons fr stack =>
      obtain ⟨pos, ind⟩ := fr
      rw [traverseAux_zero] at hrun
      cases hrun
  | succ fuel ih =>
    intro m stack c res hne hrun h i hmem v hv j hj1 hj2
    cases stack with
    | nil =>
      rw [traverseAux_nil] at hrun
      cases hrun
      simp at hmem
    | cons fr stack =>
      obtain ⟨pos, ind⟩ := fr
      cases hg : mapGet m (E.hash pos) with
      | none =>
        rw [traverseAux_miss E depthCallback fuel m pos ind stack c hg] at hrun
        exact ih m stack c res hne hrun h i hmem v hv j hj1 hj2
      | some entries =>
        have hennil : entries ≠ [] := mapGet_some_ne_nil m _ entries hne hg
        by_cases hlt : ind < entries.length
        · have h2 : ind < (depthCallback c stack.length pos entries ind).2.length := by
            rw [depthCallback_snd, modifyAt_length]
            exact hlt
          rw [traverseAux_visit E depthCallback fuel m pos ind stack c entries hg hlt h2]
            at hrun
          cases hu : E.unpack pos
              (((depthCallback c stack.length pos entries ind).2.get ⟨ind, h2⟩).mov) with
          | none =>
            simp only [hu, Option.map_none'] at hrun
            cases hrun
          | some mv =>
            simp only [hu] at hrun
            cases hp : E.play pos mv with
            | none =>
              simp only [hp, Option.map_none'] at hrun
              cases hrun
            | some child =>
              simp only [hp] at hrun
              cases hrec : traverseAux E depthCallback fuel
                  (mapSet m (E.hash pos) (depthCallback c stack.length pos entries ind).2)
                  ((child, 0) :: (pos, ind + 1) :: stack)
                  (depthCallback c stack.length pos entries ind).1 with
              | none =>
                simp only [hrec, Option.map_none'] at hrun
                cases hrun
              | some s =>
                simp only [hrec, Option.map_some'] at hrun
                have hrel1 : MapRel EraseRel m
                    (mapSet m (E.hash pos) (depthCallback c stack.length pos entries ind).2) :=
                  MapRel.update EraseRel.rfl m _ entries _ hg
                    (EraseRel.depthCB c stack.length pos entries ind)
                have hne1 := MapRel.ne_nil EraseRel.len hrel1 hne
                have hset := mapGet_mapSet_self m (E.hash pos)
                  (depthCallback c stack.length pos entries ind).2 entries hg
                have hlen : (depthCallback c stack.length pos entries ind).2.length =
                    entries.length := by
                  rw [depthCallback_snd, modifyAt_length]
                cases hrun
                rcases List.mem_cons.1 hmem with heq | htr
                · -- the head visit
                  have hh : h = E.hash pos := congrArg Prod.fst heq
                  have hieq : i = ind := congrArg Prod.snd heq
                  subst hh
                  subst hieq
                  rw [hg] at hv
                  have hv' := Option.some.inj hv
                  subst hv'
                  rcases Nat.eq_or_lt_of_le hj1 with heq2 | hlt2
                  · subst heq2
                    exact List.mem_cons_self _ _
                  · have hproc := traverseAux_processes E fuel _ _ _ s hne1 hrec (pos, i + 1)
                      (List.mem_cons_of_mem _ (List.mem_cons_self _ _))
                      (depthCallback c stack.length pos entries i).2 hset j
                      hlt2 (by rw [hlen]; exact hj2)
                    exact List.mem_cons_of_mem _ hproc
                · -- a later visit
                  by_cases hhash : h = E.hash pos
                  · subst hhash
                    rw [hg] at hv
                    have hv' := Option.some.inj hv
                    subst hv'
                    have hrec2 := ih _ _ _ s hne1 hrec (E.hash pos) i htr
                      (depthCallback c stack.length pos entries ind).2 hset j hj1
                      (by rw [hlen]; exact hj2)
                    exact List.mem_cons_of_mem _ hrec2
                  · have hget := mapGet_mapSet_ne m (E.hash pos)
                      (depthCallback c stack.length pos entries ind).2 h hhash
                    have := ih _ _ _ s hne1 hrec h i htr v (by rw [hget]; exact hv)
                      j hj1 hj2
                    exact List.mem_cons_of_mem _ this
        · rw [traverseAux_skip E depthCallback fuel m pos ind stack c entries hg hlt hennil]
            at hrun
          exact ih m stack c res hne hrun h i hmem v hv j hj1 hj2

theorem idCallback_snd {Pos : Type} (c : Unit) (sl : Nat) (pos : Pos)
    (v : List BookEntry) (i : Nat) : (idCallback c sl pos v i).2 = v := rfl

/-- Simulation: the spec's (non-mutating) Tree Walk over a restriction
`m2` of the walked map to the visited hashes — with the same nodes up to
depth fields — runs in lockstep with the depth walk, produces the same
visit trace, and leaves `m2` unchanged. -/
theorem traverseAux_sim {Pos San Move : Type} (E : Engine Pos San Move)
    (V : List (Nat × Nat)) (m2 : BookMapData)
    (hne2 : ∀ p ∈ m2, p.2 ≠ [])
    (hnone : ∀ h : Nat, (∀ i, (h, i) ∉ V) → mapGet m2 h = none) :
    ∀ (fuel : Nat) (md : BookMapData) (stack : List (Pos × Nat)) (c : Unit)
      (res : BookMapData × Unit × List (Nat × Nat)),
      (∀ p ∈ md, p.2 ≠ []) →
      (∀ h : Nat, (∃ i, (h, i) ∈ V) →
        ∃ v w, mapGet md h = some v ∧ mapGet m2 h = some w ∧
          eraseDepths w = eraseDepths v) →
      traverseAux E depthCallback fuel md stack c = some res →
      (∀ x ∈ res.2.2, x ∈ V) →
      traverseAux E idCallback fuel m2 stack () = some (m2, (), res.2.2) := by
  intro fuel
  induction fuel with
  | zero =>
    intro md stack c res hne hsome hrun hsub
    cases stack with
    | nil =>
      rw [traverseAux_nil] at hrun
      cases hrun
      rw [traverseAux_nil]
    | cons fr stack =>
      obtain ⟨pos, ind⟩ := fr
      rw [traverseAux_zero] at hrun
      cases hrun
  | succ fuel ih =>
    intro md stack c res hne hsome hrun hsub
    cases stack with
    | nil =>
      rw [traverseAux_nil] at hrun
      cases hrun
      rw [traverseAux_nil]
    | cons fr stack =>
      obtain ⟨pos, ind⟩ := fr
      cases hg : mapGet md (E.hash pos) with
      | none =>
        have hm2 : mapGet m2 (E.hash pos) = none := by
          by_cases hvis : ∃ i, (E.hash pos, i) ∈ V
          · obtain ⟨v, w, hv, hw, _⟩ := hsome _ hvis
            rw [hg] at hv
            cases hv
          · exact hnone _ (fun i hi => hvis ⟨i, hi⟩)
        rw [traverseAux_miss E depthCallback fuel md pos ind stack c hg] at hrun
        rw [traverseAux_miss E idCallback fuel m2 pos ind stack () hm2]
        exact ih md stack c res hne hsome hrun hsub
      | some entries =>
        have hennil : entries ≠ [] := mapGet_some_ne_nil md _ entries hne hg
        by_cases hlt : ind < entries.length
        · have h2 : ind < (depthCallback c stack.length pos entries ind).2.length := by
            rw [depthCallback_snd, modifyAt_length]
            exact hlt
          rw [traverseAux_visit E depthCallback fuel md pos ind stack c entries hg hlt h2]
            at hrun
          cases hu : E.unpack pos
              (((depthCallback c stack.length pos entries ind).2.get ⟨ind, h2⟩).mov) with
          | none =>
            simp only [hu, Option.map_none'] at hrun
            cases hrun
          | some mv =>
            simp only [hu] at hrun
            cases hp : E.play pos mv with
            | none =>
              simp only [hp, Option.map_none'] at hrun
              cases hrun
            | some child =>
              simp only [hp] at hrun
              cases hrec : traverseAux E depthCallback fuel
                  (mapSet md (E.hash pos) (depthCallback c stack.length pos entries ind).2)
                  ((child, 0) :: (pos, ind + 1) :: stack)
                  (depthCallback c stack.length pos entries ind).1 with
              | none =>
                simp only [hrec, Option.map_none'] at hrun
                cases hrun
              | some s =>
                simp only [hrec, Option.map_some'] at hrun
                cases hrun
                -- the visited hash is in V, so m2 carries the same node
                have hvis : ∃ i, (E.hash pos, i) ∈ V :=
                  ⟨ind, hsub _ (List.mem_cons_self _ _)⟩
                obtain ⟨v, w, hv, hw, herase⟩ := hsome _ hvis
                rw [hg] at hv
                have hv' := Option.some.inj hv
                subst hv'
                have hlenw : w.length = entries.length := EraseRel.len entries w herase
                have hltw : ind < w.length := by rw [hlenw]; exact hlt
                have h2w : ind < (idCallback () stack.length pos w ind).2.length := by
                  rw [idCallback_snd]
                  exact hltw
                -- the moves agree, hence so do unpack and play
                have hmov : ((idCallback () stack.length pos w ind).2.get ⟨ind, h2w⟩).mov =
                    ((depthCallback c stack.length pos entries ind).2.get ⟨ind, h2⟩).mov := by
                  have hgd : (depthCallback c stack.length pos entries ind).2.get? ind =
                      some ((depthCallback c stack.length pos entries ind).2.get ⟨ind, h2⟩) :=
                    List.get?_eq_get h2
                  have hgd2 : (depthCallback c stack.length pos entries ind).2.get? ind =
                      some { entries.get ⟨ind, hlt⟩ with depth := some stack.length } := by
                    rw [depthCallback_snd, modifyAt_get?_eq, List.get?_eq_get hlt,
                      Option.map_some']
                  have hdd := Option.some.inj (hgd.symm.trans hgd2)
                  have hmd : ((depthCallback c stack.length pos entries ind).2.get
                      ⟨ind, h2⟩).mov = (entries.get ⟨ind, hlt⟩).mov := by
                    rw [hdd]
                  have hww : (w.get ⟨ind, hltw⟩).mov = (entries.get ⟨ind, hlt⟩).mov :=
                    eraseDepths_get?_mov w entries herase ind _ _
                      (List.get?_eq_get hltw) (List.get?_eq_get hlt)
                  show (w.get ⟨ind, hltw⟩).mov = _
                  rw [hww, hmd]
                rw [traverseAux_visit E idCallback fuel m2 pos ind stack () w hw hltw h2w,
                  hmov]
                simp only [hu, hp]
                have hm2set : mapSet m2 (E.hash pos) (idCallback () stack.length pos w ind).2 =
                    m2 := by
                  rw [idCallback_snd]
                  exact mapSet_self m2 _ w hw
                rw [hm2set]
                -- recurse
                have hrel1 : MapRel EraseRel md
                    (mapSet md (E.hash pos) (depthCallback c stack.length pos entries ind).2) :=
                  MapRel.update EraseRel.rfl md _ entries _ hg
                    (EraseRel.depthCB c stack.length pos entries ind)
                have hne1 := MapRel.ne_nil EraseRel.len hrel1 hne
                have hset := mapGet_mapSet_self md (E.hash pos)
                  (depthCallback c stack.length pos entries ind).2 entries hg
                have hsome1 : ∀ h : Nat, (∃ i, (h, i) ∈ V) →
                    ∃ v' w', mapGet (mapSet md (E.hash pos)
                        (depthCallback c stack.length pos entries ind).2) h = some v' ∧
                      mapGet m2 h = some w' ∧ eraseDepths w' = eraseDepths v' := by
                  intro h hvis'
                  by_cases hh : h = E.hash pos
                  · subst hh
                    refine ⟨(depthCallback c stack.length pos entries ind).2, w, hset, hw, ?_⟩
                    rw [herase]
                    exact (EraseRel.depthCB c stack.length pos entries ind).symm
                  · obtain ⟨v', w', hv', hw', he'⟩ := hsome h hvis'
                    refine ⟨v', w', ?_, hw', he'⟩
                    rw [mapGet_mapSet_ne md (E.hash pos) _ h hh]
                    exact hv'
                have hihres := ih _ _ _ s hne1 hsome1 hrec
                  (fun x hx => hsub x (List.mem_cons_of_mem _ hx))
                show (traverseAux E idCallback fuel m2
                    ((child, 0) :: (pos, ind + 1) :: stack) ()).map
                    (fun t : BookMapData × Unit × List (Nat × Nat) =>
                      (t.1, t.2.1, (E.hash pos, ind) :: t.2.2)) =
                  some (m2, (), (E.hash pos, ind) :: s.2.2)
                rw [hihres]
                rfl
        · rw [traverseAux_skip E depthCallback fuel md pos ind stack c entries hg hlt hennil]
            at hrun
          by_cases hvis : ∃ i, (E.hash pos, i) ∈ V
          · obtain ⟨v, w, hv, hw, herase⟩ := hsome _ hvis
            rw [hg] at hv
            have hv' := Option.some.inj hv
            subst hv'
            have hlenw : w.length = entries.length := EraseRel.len entries w herase
            have hltw : ¬ ind < w.length := by rw [hlenw]; exact hlt
            have hwne : w ≠ [] := hne2 (E.hash pos, w) (mapGet_mem m2 _ w hw)
            rw [traverseAux_skip E idCallback fuel m2 pos ind stack () w hw hltw hwne]
            exact ih md stack c res hne hsome hrun hsub
          · have hm2 : mapGet m2 (E.hash pos) = none :=
              hnone _ (fun i hi => hvis ⟨i, hi⟩)
            rw [traverseAux_miss E idCallback fuel m2 pos ind stack () hm2]
            exact ih md stack c res hne hsome hrun hsub

/-! ### `BookMap::filter` structure -/

theorem mapFilter_ne_nil (m : BookMapData) (pred : BookEntry → Bool) :
    ∀ p ∈ mapFilter m pred, p.2 ≠ [] := by
  intro p hp
  have := (List.mem_filter.1 hp).2
  intro hnil
  rw [hnil] at this
  simp at this

theorem mapFilter_pred (m : BookMapData) (pred : BookEntry → Bool) :
    ∀ p ∈ mapFilter m pred, ∀ e ∈ p.2, pred e = true := by
  intro p hp e he
  obtain ⟨hp1, -⟩ := List.mem_filter.1 hp
  obtain ⟨q, hq, hpq⟩ := List.mem_map.1 hp1
  rw [← hpq] at he
  exact (List.mem_filter.1 he).2

theorem mapFilter_cons (k : Nat) (v : List BookEntry) (rest : BookMapData)
    (pred : BookEntry → Bool) :
    mapFilter ((k, v) :: rest) pred =
      if (v.filter pred).isEmpty then mapFilter rest pred
      else (k, v.filter pred) :: mapFilter rest pred := by
  by_cases hb : (v.filter pred).isEmpty
  · simp [mapFilter, hb]
  · simp [mapFilter, hb]

theorem mapGet_mapFilter_none (m : BookMapData) (pred : BookEntry → Bool)
    (h : Nat) (hm : mapGet m h = none) : mapGet (mapFilter m pred) h = none := by
  induction m with
  | nil => rfl
  | cons p rest ih =>
    obtain ⟨k, v⟩ := p
    by_cases hk : k = h
    · rw [mapGet, if_pos hk] at hm
      cases hm
    · rw [mapGet, if_neg hk] at hm
      rw [mapFilter_cons]
      by_cases hb : (v.filter pred).isEmpty
      · rw [if_pos hb]
        exact ih hm
      · rw [if_neg hb, mapGet, if_neg hk]
        exact ih hm

theorem mapGet_mapFilter (m : BookMapData) (pred : BookEntry → Bool) (h : Nat)
    (hkeys : (m.map Prod.fst).Nodup) (v : List BookEntry)
    (hv : mapGet m h = some v) :
    mapGet (mapFilter m pred) h =
      (if (v.filter pred).isEmpty then none else some (v.filter pred)) := by
  induction m with
  | nil => cases hv
  | cons p rest ih =>
    obtain ⟨k, w⟩ := p
    have hkeys' : (rest.map Prod.fst).Nodup := (List.nodup_cons.1 (by simpa using hkeys)).2
    by_cases hk : k = h
    · rw [mapGet, if_pos hk] at hv
      have hw := Option.some.inj hv
      subst hw
      have hnot : mapGet rest h = none := by
        cases hr : mapGet rest h with
        | none => rfl
        | some u =>
          have hmem : k ∈ rest.map Prod.fst := by
            rw [hk]
            exact List.mem_map.2 ⟨(h, u), mapGet_mem rest h u hr, rfl⟩
          exact absurd hmem (List.nodup_cons.1 (by simpa using hkeys)).1
      rw [mapFilter_cons]
      by_cases hb : (w.filter pred).isEmpty
      · rw [if_pos hb, if_pos hb]
        exact mapGet_mapFilter_none rest pred h hnot
      · rw [if_neg hb, if_neg hb, mapGet, if_pos hk]
    · rw [mapGet, if_neg hk] at hv
      rw [mapFilter_cons]
      by_cases hb : (w.filter pred).isEmpty
      · rw [if_pos hb]
        exact ih hkeys' hv
      · rw [if_neg hb, mapGet, if_neg hk]
        exact ih hkeys' hv

/-- **C8.** After `remove_disconnected()` no surviving entry has
`depth = none`, and a fresh Tree Walk from the current root (same fuel)
leaves the pruned map unchanged and visits exactly the surviving entries:
`(h, i)` is visited if and only if node `h` survived and `i` indexes one
of its entries. -/
theorem remove_disconnected_spec {Pos San Move : Type} (E : Engine Pos San Move)
    (fuel : Nat) (m : BookMapData) (root : Pos)
    (hne : ∀ p ∈ m, p.2 ≠ [])
    (hkeys : (m.map Prod.fst).Nodup)
    (m2 : BookMapData) (hrun : removeDisconnected E fuel m root = some m2) :
    (∀ p ∈ m2, ∀ e ∈ p.2, e.depth ≠ none) ∧
    ∃ V, treeWalk E fuel m2 root = some (m2, V) ∧
      ∀ h i, ((h, i) ∈ V ↔ ∃ v, mapGet m2 h = some v ∧ i < v.length) := by
  -- unfold the run
  rw [removeDisconnected, setDepths] at hrun
  cases hta : traverseAux E depthCallback fuel (clearDepths m) [(root, 0)] () with
  | none =>
    rw [hta] at hrun
    cases hrun
  | some res =>
    rw [hta] at hrun
    simp only [Option.map_some'] at hrun
    have hm2 : m2 = mapFilter res.1 (fun e => e.depth.isSome) := by
      cases hrun
      rfl
    have hne0 : ∀ p ∈ clearDepths m, p.2 ≠ [] := clearDepths_ne_nil m hne
    -- marking, shape, well-formedness, closure
    have hmark : ∀ h i, depthSome res.1 h i ↔ (h, i) ∈ res.2.2 := by
      intro h i
      rw [traverseAux_depth_mark E fuel (clearDepths m) [(root, 0)] () res hne0 hta h i]
      constructor
      · rintro (hd | hv)
        · exact absurd hd (clearDepths_not_depthSome m h i)
        · exact hv
      · exact fun hv => Or.inr hv
    have hshape : MapRel EraseRel (clearDepths m) res.1 :=
      traverseAux_mapRel E depthCallback EraseRel (EraseRel.depthCB) EraseRel.rfl
        EraseRel.comp EraseRel.len fuel (clearDepths m) [(root, 0)] () res hne0 hta
    have hwf : ∀ h i, (h, i) ∈ res.2.2 →
        ∃ v, mapGet (clearDepths m) h = some v ∧ i < v.length :=
      traverseAux_visits_lt E fuel (clearDepths m) [(root, 0)] () res hne0 hta
    have hdown1 : ∀ h i, (h, i + 1) ∈ res.2.2 → (h, i) ∈ res.2.2 := by
      intro h i hmem
      have := traverseAux_chain E fuel (clearDepths m) [(root, 0)] () res [] hne0
        (by
          intro pr hpr j hj
          rcases List.mem_cons.1 hpr with heq | h0
          · subst heq
            cases hj
          · simp at h0)
        hta h i hmem
      rcases this with h0 | hv
      · simp at h0
      · exact hv
    have hdown : ∀ i h, (h, i) ∈ res.2.2 → (h, 0) ∈ res.2.2 := by
      intro i
      induction i with
      | zero => exact fun h hv => hv
      | succ j ihj => exact fun h hv => ihj h (hdown1 h j hv)
    have hup : ∀ h i, (h, i) ∈ res.2.2 →
        ∀ v, mapGet (clearDepths m) h = some v →
        ∀ j, i ≤ j → j < v.length → (h, j) ∈ res.2.2 :=
      traverseAux_upward E fuel (clearDepths m) [(root, 0)] () res hne0 hta
    -- node saturation
    have hsat : ∀ h i, (h, i) ∈ res.2.2 →
        ∀ v, mapGet (clearDepths m) h = some v → ∀ j, j < v.length →
          (h, j) ∈ res.2.2 := by
      intro h i hv v hgv j hj
      exact hup h 0 (hdown i h hv) v hgv j (Nat.zero_le j) hj
    -- keys of the final depth map are nodup
    have hkeys1 : (res.1.map Prod.fst).Nodup := by
      rw [hshape.keys, clearDepths_keys]
      exact hkeys
    -- node of `res.1` vs node of `clearDepths m`
    have hnode : ∀ h v0, mapGet (clearDepths m) h = some v0 →
        ∃ vd, mapGet res.1 h = some vd ∧ eraseDepths vd = eraseDepths v0 ∧
          vd.length = v0.length := by
      intro h v0 hv0
      rcases hshape.get h with ⟨ha, -⟩ | ⟨v, w, ha, hb, hQ⟩
      · rw [ha] at hv0
        cases hv0
      · rw [ha] at hv0
        have hveq := Option.some.inj hv0
        subst hveq
        exact ⟨w, hb, hQ, EraseRel.len v w hQ⟩
    -- survivors: a visited node is kept whole, an unvisited one vanishes
    have hfull : ∀ h, (∃ i, (h, i) ∈ res.2.2) →
        ∀ vd, mapGet res.1 h = some vd →
          vd.filter (fun e => e.depth.isSome) = vd := by
      intro h hvis vd hvd
      obtain ⟨i, hi⟩ := hvis
      obtain ⟨v0, hv0, -⟩ := hwf h i hi
      obtain ⟨vd', hvd', -, hlen⟩ := hnode h v0 hv0
      have hveq : vd = vd' := by
        rw [hvd] at hvd'
        exact Option.some.inj hvd'
      rw [← hveq] at hlen
      refine List.filter_eq_self.2 ?_
      intro e he
      obtain ⟨j, hj⟩ := List.mem_iff_get?.1 he
      have hjlt : j < vd.length := (List.get?_eq_some.1 hj).1
      have hjv : (h, j) ∈ res.2.2 := by
        refine hsat h i hi v0 hv0 j ?_
        rw [← hlen]
        exact hjlt
      have := (hmark h j).2 hjv
      obtain ⟨u, hu, e', he', hd⟩ := this
      rw [hvd] at hu
      have := Option.some.inj hu
      subst this
      rw [hj] at he'
      have := Option.some.inj he'
      subst this
      exact hd
    have hvanish : ∀ h, (∀ i, (h, i) ∉ res.2.2) →
        ∀ vd, mapGet res.1 h = some vd →
          vd.filter (fun e => e.depth.isSome) = [] := by
      intro h hnv vd hvd
      refine List.filter_eq_nil_iff.2 ?_
      intro e he hd
      obtain ⟨j, hj⟩ := List.mem_iff_get?.1 he
      have : depthSome res.1 h j := ⟨vd, hvd, e, hj, hd⟩
      exact hnv j ((hmark h j).1 this)
    -- the filtered map's nodes
    have hG1 : ∀ h, (∃ i, (h, i) ∈ res.2.2) → mapGet m2 h = mapGet res.1 h := by
      intro h hvis
      obtain ⟨i, hi⟩ := hvis
      obtain ⟨v0, hv0, hilt⟩ := hwf h i hi
      obtain ⟨vd, hvd, -, hlen⟩ := hnode h v0 hv0
      have hfull' := hfull h ⟨i, hi⟩ vd hvd
      rw [hm2, mapGet_mapFilter res.1 _ h hkeys1 vd hvd, hfull', hvd]
      have : vd ≠ [] := by
        intro hnil
        rw [hnil] at hlen
        rw [← hlen] at hilt
        simp at hilt
      rw [if_neg (by simpa [List.isEmpty_iff] using this)]
    have hG2 : ∀ h, (∀ i, (h, i) ∉ res.2.2) → mapGet m2 h = none := by
      intro h hnv
      rw [hm2]
      cases hvd : mapGet res.1 h with
      | none => exact mapGet_mapFilter_none res.1 _ h hvd
      | some vd =>
        rw [mapGet_mapFilter res.1 _ h hkeys1 vd hvd, hvanish h hnv vd hvd]
        rfl
    have hne2 : ∀ p ∈ m2, p.2 ≠ [] := by
      rw [hm2]
      exact mapFilter_ne_nil res.1 _
    -- the simulation: the fresh walk over `m2` visits the same trace
    have hsim := traverseAux_sim E res.2.2 m2 hne2 hG2 fuel (clearDepths m)
      [(root, 0)] () res hne0
      (by
        intro h hvis
        obtain ⟨i, hi⟩ := hvis
        obtain ⟨v0, hv0, -⟩ := hwf h i hi
        obtain ⟨vd, hvd, herase, -⟩ := hnode h v0 hv0
        refine ⟨v0, vd, hv0, ?_, herase⟩
        rw [hG1 h ⟨i, hi⟩, hvd])
      hta (fun x hx => hx)
    constructor
    · -- no surviving entry has depth none
      intro p hp e he
      have hpred := mapFilter_pred res.1 (fun e => e.depth.isSome) p
        (by rw [← hm2]; exact hp) e he
      have hb : e.depth.isSome = true := hpred
      intro hdn
      rw [hdn] at hb
      cases hb
    · refine ⟨res.2.2, ?_, ?_⟩
      · rw [treeWalk, hsim]
        rfl
      · intro h i
        constructor
        · intro hi
          obtain ⟨v0, hv0, hilt⟩ := hwf h i hi
          obtain ⟨vd, hvd, -, hlen⟩ := hnode h v0 hv0
          refine ⟨vd, ?_, ?_⟩
          · rw [hG1 h ⟨i, hi⟩, hvd]
          · rw [hlen]
            exact hilt
        · rintro ⟨v2, hv2, hilt⟩
          by_cases hvis : ∃ j, (h, j) ∈ res.2.2
          · obtain ⟨j, hj⟩ := hvis
            obtain ⟨v0, hv0, -⟩ := hwf h j hj
            obtain ⟨vd, hvd, -, hlen⟩ := hnode h v0 hv0
            have hv2' : mapGet m2 h = some vd := by
              rw [hG1 h ⟨j, hj⟩, hvd]
            rw [hv2] at hv2'
            have := Option.some.inj hv2'
            subst this
            refine hsat h j hj v0 hv0 i ?_
            rw [← hlen]
            exact hilt
          · have : mapGet m2 h = none :=
              hG2 h (fun j hj => hvis ⟨j, hj⟩)
            rw [hv2] at this
            cases this

/-- Closed instance of `remove_disconnected_spec`: pruning a book with one
reachable and one orphaned node keeps exactly the reachable node, and the
fresh walk visits exactly its entry. -/
theorem remove_disconnected_spec_witness :
    ∃ V, treeWalk natEngine 20 [(0, [BookEntry.mk 1 (some 0) 1 0])] 0 =
        some ([(0, [BookEntry.mk 1 (some 0) 1 0])], V) ∧
      ∀ h i, ((h, i) ∈ V ↔
        ∃ v, mapGet [(0, [BookEntry.mk 1 (some 0) 1 0])] h = some v ∧ i < v.length) :=
  (remove_disconnected_spec natEngine 20
    [(0, [BookEntry.mk 1 (some 7) 1 0]), (99, [BookEntry.mk 9 (some 0) 1 1])] 0
    (by decide) (by decide)
    [(0, [BookEntry.mk 1 (some 0) 1 0])] (by decide)).2

/-! ### The text/blob reader (`BookMap::read_txt`) -/

/-- The fatal outcomes of `read_txt`.  The first three are the reader's
`panic!`/`expect` messages, which carry a location; `underflow` is the
`paren_indent -= 4` subtraction underflowing `usize` at `paren_indent <
4` (a debug-profile arithmetic panic in Rust, which carries no parse
location — the model tags the line for bookkeeping only). -/
inductive ParseErr where
  | invalidToken (word : String) (line col : Nat)
  | noMove (entry : String) (line col : Nat)
  | invalidMove (line col : Nat)
  | underflow (line : Nat)
deriving Repr, DecidableEq

/-- Rust's `str::parse::<u64>`: optional leading `+`, at least one digit,
all digits, value within `u64`. -/
def parseU64 (s : List Char) : Option Nat :=
  let digits := match s with
    | '+' :: rest => rest
    | _ => s
  if digits ≠ [] ∧ digits.all (fun c => c.isDigit) then
    let n := digits.foldl (fun acc c => acc * 10 + (c.toNat - '0'.toNat)) 0
    if n < 2 ^ 64 then some n else none
  else none

/-- The characters of `" \n\t,/()"` (word boundaries). -/
def isWordDelim (c : Char) : Bool :=
  c = ' ' || c = '\n' || c = '\t' || c = ',' || c = '/' || c = '(' || c = ')'

/-- The characters of `"\n,/()"` (entry terminators). -/
def isEntryDelim (c : Char) : Bool :=
  c = '\n' || c = ',' || c = '/' || c = '(' || c = ')'

/-- ASCII whitespace for `str::trim`. -/
def isWs (c : Char) : Bool :=
  c = ' ' || c = '\t' || c = '\n' || c = '\r'

def trimChars (l : List Char) : List Char :=
  ((l.dropWhile isWs).reverse.dropWhile isWs).reverse

/-- Leading-indentation count of `process_line` (space = 1, tab = 4),
returning the de-indented remainder. -/
def indentOf : List Char → Nat × List Char
  | ' ' :: rest =>
    let r := indentOf rest
    (r.1 + 1, r.2)
  | '\t' :: rest =>
    let r := indentOf rest
    (r.1 + 4, r.2)
  | l => (0, l)

/-- The helper `process_line`: strip indentation, cut at the first `;`,
trim, append a newline; also return the indentation count. -/
def processLine (l : List Char) : List Char × Nat :=
  let r := indentOf l
  (trimChars (r.2.takeWhile (fun c => c ≠ ';')) ++ ['\n'], r.1)

/-- Rust's `lines()`: split on `'\n'` (an empty trailing line is harmless:
it is skipped as blank). -/
def splitLines : List Char → List (List Char)
  | [] => [[]]
  | '\n' :: rest => [] :: splitLines rest
  | c :: rest =>
    match splitLines rest with
    | l :: ls => (c :: l) :: ls
    | [] => [[c]]

/-- The `while let Some((_, indent2)) = stack.last()` pop loop: pop while
the top's indent is not smaller than the line's, restoring `pos`. -/
def popStack {Pos : Type} : List (Pos × Nat) → Nat → Pos → List (Pos × Nat) × Pos
  | [], _, pos => ([], pos)
  | (p, ind2) :: rest, indent, pos =>
    if ind2 < indent then ((p, ind2) :: rest, pos)
    else popStack rest indent p

/-- The reader's cross-line state: the book map under construction, the
ancestry stack, the current position, the bracket indentation, the root
flag and the root position. -/
structure ReadSt (Pos : Type) where
  out : BookMapData
  stack : List (Pos × Nat)
  pos : Pos
  parenIndent : Nat
  rootFlag : Bool
  rootPos : Pos

/-- The per-line locals of the `read_txt` character loop. -/
structure LineSt (San : Type) where
  weight : Nat
  san : Option San
  learn : Nat
  entrystart : Nat
  wordstart : Nat
  firstEntry : Bool
  readWeight : Bool

/-- One pass of the `for (i, c) in line.chars().enumerate()` loop of
`read_txt`: word-boundary handling, entry termination with replace-skip
insertion at `depth = stack length`, and the `/ ( )` punctuation actions
(`)` underflows `paren_indent` when no `(` preceded). -/
def lineLoop {Pos San Move : Type} (E : Engine Pos San Move)
    (line : List Char) (lineNo indent : Nat) :
    Nat → List Char → LineSt San → ReadSt Pos → Except ParseErr (ReadSt Pos)
  | _, [], _, st => Except.ok st
  | i, c :: cs, ls, st => do
    -- word boundary
    let ls ←
      if isWordDelim c || (!c.isDigit && ls.readWeight) then do
        let word := (line.drop ls.wordstart).take (i - ls.wordstart)
        let ls2 ←
          match parseU64 word with
          | some n =>
            match ls.san with
            | none => pure { ls with weight := n }
            | some _ => pure { ls with learn := n % 2 ^ 32 }
          | none =>
            match E.parseSan (String.mk word) with
            | some s => pure { ls with san := some s }
            | none =>
              if word ≠ [] then
                Except.error (ParseErr.invalidToken (String.mk word) (lineNo + 1) (i + 1))
              else
                pure ls
        let ws := if isWordDelim c then i + 1 else i
        pure { ls2 with
          wordstart := ws
          readWeight := if c.isAlpha then false else ls2.readWeight }
      else
        pure ls
    -- entry termination
    let r ←
      if isEntryDelim c && ls.entrystart ≠ i then do
        let pr :=
          if ls.firstEntry then popStack st.stack indent st.pos
          else (st.stack, st.pos)
        match ls.san with
        | none =>
          Except.error (ParseErr.noMove
            (String.mk ((line.drop ls.entrystart).take (i - ls.entrystart)))
            (lineNo + 1) (i + 1))
        | some s =>
          match E.sanToMove pr.2 s with
          | none => Except.error (ParseErr.invalidMove (lineNo + 1) (i + 1))
          | some mov =>
            let entry := BookEntry.mk (E.pack mov) (some pr.1.length) ls.weight ls.learn
            pure
              ({ ls with
                  san := none
                  learn := 0
                  entrystart := i + 1
                  firstEntry := false
                  readWeight := true },
                { st with
                    out := mapInsertNoMerge st.out (E.hash pr.2) entry
                    stack := (pr.2, indent) :: pr.1
                    pos := E.playUnchecked pr.2 mov })
      else
        pure (ls, st)
    -- punctuation
    let r2 ←
      match c with
      | '/' => pure ({ r.1 with firstEntry := true, weight := 1 }, r.2)
      | '(' => pure ({ r.1 with firstEntry := true, weight := 1 },
          { r.2 with parenIndent := r.2.parenIndent + 4 })
      | ')' =>
        if r.2.parenIndent < 4 then
          Except.error (ParseErr.underflow (lineNo + 1))
        else
          pure ({ r.1 with firstEntry := true, weight := 1 },
            { r.2 with parenIndent := r.2.parenIndent - 4 })
      | _ => pure (r.1, r.2)
    lineLoop E line lineNo indent (i + 1) cs r2.1 r2.2

/-- The line loop of `read_txt`: `process_line`, blank-line skip, the
root-FEN attempt on the first contentful line, then the character loop. -/
def readTxtLines {Pos San Move : Type} (E : Engine Pos San Move) :
    Nat → List (List Char) → ReadSt Pos → Except ParseErr (ReadSt Pos)
  | _, [], st => Except.ok st
  | lineNo, l :: rest, st => do
    let pl := processLine l
    let indent := pl.2 + st.parenIndent
    if trimChars pl.1 = [] then
      readTxtLines E (lineNo + 1) rest st
    else
      match st.rootFlag, E.parseFen (String.mk pl.1) with
      | true, some p =>
        readTxtLines E (lineNo + 1) rest
          { st with pos := p, rootPos := p, rootFlag := false }
      | _, _ => do
        let st2 ← lineLoop E pl.1 lineNo indent 0 pl.1
          (LineSt.mk 1 none 0 0 0 true true) { st with rootFlag := false }
        readTxtLines E (lineNo + 1) rest st2

/-- The reader `BookMap::read_txt`: returns the built map and the root
position. -/
def readTxt {Pos San Move : Type} (E : Engine Pos San Move) (input : String) :
    Except ParseErr (BookMapData × Pos) :=
  (readTxtLines E 0 (splitLines input.toList)
      (ReadSt.mk [] [] E.startPos 0 true E.startPos)).map
    (fun st => (st.out, st.rootPos))

/-- Move encoding of the toy text engine: `e4` is 1, `e5` is 2, `c5` is 3. -/
def sanCode (s : String) : Nat :=
  if s = "e4" then 1 else if s = "e5" then 2 else if s = "c5" then 3 else 0

/-- A toy engine over `Nat` positions whose SAN vocabulary is `e4`, `e5`
and `c5`: playing a move appends its code in base 4, the hash is the
position itself, and no line parses as a FEN. -/
def strEngine : Engine Nat String String where
  startPos := 0
  startHash := 0
  hash := id
  sanToMove _ s := some s
  play p m := some (p * 4 + sanCode m)
  playUnchecked p m := p * 4 + sanCode m
  pack := sanCode
  unpack _ _ := none
  sanPlusStr _ m := m
  sanStr _ m := m
  parseSan s := if s = "e4" ∨ s = "e5" ∨ s = "c5" then some s else none
  parseFen _ := none
  fenStr _ := ""

/-- C9: the text reader inserts every parsed entry with `insert_no_merge`
(replace-skip) at `depth = stack length`; on the input
`"e4, e5\ne4, c5 2"` the duplicate `e4` of the second line is dropped — not
summed — after the indentation stack re-anchors to the root, so the result
is a root node with the single child `e4` (weight 1, depth 0) and a
post-`e4` node with exactly the children `e5` (weight 1, depth 1) and
`c5` (weight 1, learn 2, depth 1). -/
theorem read_txt_scenario :
    readTxt strEngine "e4, e5\ne4, c5 2" =
      Except.ok
        ([(0, [BookEntry.mk 1 (some 0) 1 0]),
          (1, [BookEntry.mk 2 (some 1) 1 0, BookEntry.mk 3 (some 1) 1 2])],
          0) := by
  rfl

/-- C10: on the input `")"` — whose first bracket punctuation is `')'` with
no preceding `'('` — the reader executes `paren_indent -= 4` with
`paren_indent = 0`, an unsigned arithmetic underflow (the model's
distinguished `underflow` outcome, which carries no parse location),
rather than any of the reader's located format errors
(`invalidToken` / `noMove` / `invalidMove`): the error type has no
unbalanced-parenthesis constructor at all. -/
theorem read_txt_paren_underflow :
    readTxt strEngine ")" = Except.error (ParseErr.underflow 1) := by
  rfl

end Rustyglot
